import Mathlib

/-!
# bcrypt password hashing: the driver and its base64 codec

A shallow embedding of `StrongPassword/BCrypt/BCrypt.cpp` (the OpenBSD bcrypt
routine): `bcrypt`, `decode_base64` and `encode_base64`.

Conventions of the embedding.

* A byte is a natural number below 256; a store into a `u_int8_t` object is
  written `% 256` where the stored value can exceed a byte.
* A C string is the list of the bytes in front of its terminating NUL.  The
  byte at index `length` is the terminator; an index past it lies outside the
  object and reading it is recorded as a fault.
* A pointer into a string is an offset into the list; once the offset is known
  to lie inside the string, the pointed-to string is the suffix `List.drop`.
* Buffers that the C code leaves uninitialised are inputs of the embedding:
  their prior contents are carried by a `Frame`.
* The header `BCrypt.h` is not part of the sources at hand.  Its constants are
  taken from the specification, its two base64 tables are a parameter
  (`Tables`), and the Blowfish routines it declares are a parameter
  (`Blowfish`); a routine that is given a pointer and a byte count receives the
  byte count and the bytes below it.
* `bcrypt_run` returns the whole machine at the moment `bcrypt` returns: the
  returned value, the log of the Blowfish calls, and the buffers.
-/

namespace BCrypt

/-! ## Constants of the header -/

/-- Modelled from the spec: `BCRYPT_VERSION` of the missing header `BCrypt.h`,
the version character `'2'`. -/
def BCRYPT_VERSION : Nat := 50

/-- Modelled from the spec: `BCRYPT_MAXSALT` of the missing header `BCrypt.h`,
the raw salt is exactly 16 bytes. -/
def BCRYPT_MAXSALT : Nat := 16

/-- Modelled from the spec: `BCRYPT_BLOCKS` of the missing header `BCrypt.h`,
the ciphertext is 24 bytes, that is six 32-bit words. -/
def BCRYPT_BLOCKS : Nat := 6

/-- Modelled from the spec: `BCRYPT_MINROUNDS` of the missing header
`BCrypt.h`, the canonical minimum number of rounds, 16. -/
def BCRYPT_MINROUNDS : Nat := 16

/-- The two base64 tables of the header, whose element type is `u_int8_t`:
`Base64Code[i]` is the character of the six-bit value `i`, and `CHAR64(c)` is
the value of the character `c`, or 255 when `c` is not in the alphabet. -/
structure Tables where
  Base64Code : Nat → Nat
  CHAR64 : Nat → Nat
  code_byte : ∀ i, Base64Code i < 256
  char_byte : ∀ c, CHAR64 c < 256

/-- The index table undoes the alphabet table on the 64 six-bit values. -/
def Tables.Inverse (T : Tables) : Prop :=
  ∀ i, i < 64 → T.CHAR64 (T.Base64Code i) = i

/-- No character of the alphabet is the NUL byte. -/
def Tables.NulFree (T : Tables) : Prop :=
  ∀ i, i < 64 → T.Base64Code i ≠ 0

/-! ## Memory -/

/-- Read the byte at index `i` of a C string: a byte of the string, the
terminating NUL at index `length`, and no value past the terminator. -/
def rd (s : List Nat) (i : Nat) : Option Nat :=
  if i ≤ s.length then some (s.getD i 0) else none

/-- The C library `strlen` on the memory `s` followed by a NUL: the number of
bytes in front of the first NUL. -/
def strlen (s : List Nat) : Nat :=
  (s.takeWhile (fun b => b ≠ 0)).length

/-- The C string held by a buffer: its bytes in front of the first NUL. -/
def cstr (buf : List Nat) : List Nat :=
  buf.takeWhile (fun b => b ≠ 0)

/-- Every element of the list is a byte. -/
def Bytes (l : List Nat) : Prop := ∀ b ∈ l, b < 256

/-- Store the bytes `bs` into `buf` at consecutive indices from `off`
(the effect of `*bp++ = b` for each `b` in turn). -/
def storeAt (buf : List Nat) (off : Nat) : List Nat → List Nat
  | [] => buf
  | b :: bs => storeAt (buf.set off b) (off + 1) bs

/-! ## The base64 codec -/

/-- The `while` loop of `decode_base64`.  `n` is the number of bytes still to
be written (`buffer + len - bp`, so `bp = len - n` and the loop test
`bp < buffer + len` is `n ≠ 0`), `p` is the read position in `data`. -/
def decode_loop (T : Tables) (data : List Nat) (len : Nat) :
    Nat → Nat → List Nat → Option (List Nat)
  | 0, _, buf => some buf
  | n + 1, p, buf =>
    match rd data p, rd data (p + 1) with
    | some x1, some x2 =>
      let c1 := T.CHAR64 x1
      let c2 := T.CHAR64 x2
      if c1 = 255 ∨ c2 = 255 then some buf
      else
        let buf := buf.set (len - (n + 1)) (((c1 <<< 2) ||| ((c2 &&& 0x30) >>> 4)) % 256)
        match n with
        | 0 => some buf
        | m + 1 =>
          match rd data (p + 2) with
          | some x3 =>
            let c3 := T.CHAR64 x3
            if c3 = 255 then some buf
            else
              let buf := buf.set (len - (m + 1))
                ((((c2 &&& 0x0f) <<< 4) ||| ((c3 &&& 0x3c) >>> 2)) % 256)
              match m with
              | 0 => some buf
              | k + 1 =>
                match rd data (p + 3) with
                | some x4 =>
                  let c4 := T.CHAR64 x4
                  if c4 = 255 then some buf
                  else
                    let buf := buf.set (len - (k + 1)) ((((c3 &&& 0x03) <<< 6) ||| c4) % 256)
                    decode_loop T data len k (p + 4) buf
                | none => none
          | none => none
    | _, _ => none

/-- The routine `decode_base64(buffer, len, data)`: the contents of `buffer` on
return, or `none` when a read went past the terminator of `data`. -/
def decode_base64 (T : Tables) (buffer : List Nat) (len : Nat) (data : List Nat) :
    Option (List Nat) :=
  decode_loop T data len len 0 buffer

/-- The `while` loop of `encode_base64`: the characters stored through `bp`,
in order.  `n` is the number of bytes still to be read (`data + len - p`),
`p` the read position. -/
def encode_loop (T : Tables) (data : List Nat) : Nat → Nat → List Nat
  | 0, _ => []
  | n + 1, p =>
    let b1 := data.getD p 0
    let o1 := T.Base64Code (b1 >>> 2)
    let c1 := ((b1 &&& 0x03) <<< 4) % 256
    match n with
    | 0 => [o1, T.Base64Code c1]
    | m + 1 =>
      let b2 := data.getD (p + 1) 0
      let c1 := c1 ||| ((b2 >>> 4) &&& 0x0f)
      let o2 := T.Base64Code c1
      let c1 := ((b2 &&& 0x0f) <<< 2) % 256
      match m with
      | 0 => [o1, o2, T.Base64Code c1]
      | k + 1 =>
        let b3 := data.getD (p + 2) 0
        let c1 := c1 ||| ((b3 >>> 6) &&& 0x03)
        o1 :: o2 :: T.Base64Code c1 :: T.Base64Code (b3 &&& 0x3f) :: encode_loop T data k (p + 3)

/-- The routine `encode_base64(buffer, data, len)`: the bytes it stores from
`buffer` on, the characters followed by the terminating NUL. -/
def encode_base64 (T : Tables) (data : List Nat) (len : Nat) : List Nat :=
  encode_loop T data len 0 ++ [0]

/-- Modelled from the spec: the tables `Base64Code` and `index_64` (read
through the macro `CHAR64`) of the missing header, for the alphabet
`./A-Za-z0-9` in this order: `'.'` is 0, `'/'` is 1, `'A'..'Z'` are 2..27,
`'a'..'z'` are 28..53 and `'0'..'9'` are 54..63. -/
def bcryptTables : Tables where
  Base64Code := fun i =>
    if i = 0 then 46 else if i = 1 then 47
    else if i < 28 then 63 + i
    else if i < 54 then 69 + i
    else if i < 64 then i - 6
    else 0
  CHAR64 := fun c =>
    if c = 46 then 0 else if c = 47 then 1
    else if 65 ≤ c ∧ c ≤ 90 then c - 63
    else if 97 ≤ c ∧ c ≤ 122 then c - 69
    else if 48 ≤ c ∧ c ≤ 57 then c + 6
    else 255
  code_byte := by intro i; dsimp only; split_ifs <;> omega
  char_byte := by intro c; dsimp only; split_ifs <;> omega

/-! ## The C library -/

/-- The value of a byte read through a `char` lvalue: `char` is signed on the
platform of this source (it calls `_snprintf`), so bytes from 128 on are
negative. -/
def schar (b : Nat) : Int :=
  if b < 128 then (b : Int) else (b : Int) - 256

/-- The C library `isspace` in the C locale. -/
def isspace (c : Nat) : Bool :=
  c = 32 || (9 ≤ c && c ≤ 13)

/-- The C library `isdigit`. -/
def isdigit (c : Nat) : Bool :=
  48 ≤ c && c ≤ 57

/-- The digit loop of `atoi`: accumulate decimal digits up to the first byte
that is not a digit. -/
def atoi_digits : List Nat → Int → Int
  | [], acc => acc
  | c :: cs, acc => if isdigit c then atoi_digits cs (acc * 10 + ((c : Int) - 48)) else acc

/-- The C library `atoi` on a C string: skip white space, read an optional
sign, then the decimal digits; 0 when there is no digit.  (The result is an
`int`; `bcrypt` calls it where at most two characters precede a `'$'`, so the
value is below 100 in magnitude.) -/
def atoi (s : List Nat) : Int :=
  match s.dropWhile isspace with
  | 45 :: r => - atoi_digits r 0
  | 43 :: r => atoi_digits r 0
  | r => atoi_digits r 0

/-! ## The Blowfish routines -/

/-- Modelled from the spec: the Blowfish routines that `BCrypt.h` declares and
that are defined outside `BCrypt.cpp`, over a cipher state of type `σ`.  A
routine that takes a buffer as a pointer and a byte count is handed the byte
count and the bytes of the buffer below that count, which are the bytes the
spec lets it cycle through ("cycling through the key buffer with modular
indexing").

* `initstate` is `Blowfish_initstate`: it loads the fixed tables and has no
  input;
* `expandstate st data databytes key keybytes` is `Blowfish_expandstate`;
* `expand0state st key keybytes` is `Blowfish_expand0state`;
* `stream2word data databytes current` is `Blowfish_stream2word`: the word read
  and the new value of `*current`;
* `blf_enc st data blocks` is `blf_enc`: the words of `data` after encryption
  (the state is not changed by it);
* `zero` is the state whose bytes are all zero, as `memset` leaves it. -/
structure Blowfish (σ : Type) where
  initstate : σ
  expandstate : σ → List Nat → Nat → List Nat → Nat → σ
  expand0state : σ → List Nat → Nat → σ
  stream2word : List Nat → Nat → Nat → Nat × Nat
  blf_enc : σ → List Nat → Nat → List Nat
  zero : σ

/-- The buffer a pointer argument of a Blowfish call names. -/
inductive Buf where
  | key
  | csalt
  deriving DecidableEq

/-- One call of a Blowfish routine by `bcrypt`, with the arguments it was
given (the state pointer apart). -/
inductive Call where
  | initstate
  | expandstate (data : List Nat) (databytes : Nat) (key : List Nat) (keybytes : Nat)
  | expand0state (buf : Buf) (key : List Nat) (keybytes : Nat)
  | stream2word (databytes : Nat) (current : Nat)
  | blf_enc (blocks : Nat)
  deriving DecidableEq

/-! ## The driver -/

/-- What `bcrypt` returns: the hash string held by `encrypted`, the literal
`"Error n"`, or no value because a read went past the terminator of `salt`. -/
inductive Result where
  | hash (s : List Nat)
  | error (n : Nat)
  | fault
  deriving DecidableEq

/-- The prior contents of the buffers that `bcrypt` does not initialise: the
locals `state`, `csalt`, `cdata` and the output buffer `encrypted`. -/
structure Frame (σ : Type) where
  state : σ
  csalt : List Nat
  cdata : List Nat
  encrypted : List Nat

/-- The buffers hold objects of their C types: `csalt` is 16 bytes, `cdata`
six words, and `encrypted` has room for the longest hash and its NUL. -/
def Frame.WF {σ : Type} (fr : Frame σ) : Prop :=
  fr.csalt.length = 16 ∧ Bytes fr.csalt ∧ fr.cdata.length = 6 ∧
    61 ≤ fr.encrypted.length

/-- The machine at the moment `bcrypt` returns: the returned value, the
Blowfish calls made so far, and the contents of the buffers. -/
structure Exit (σ : Type) where
  ret : Result
  calls : List Call
  state : σ
  ciphertext : List Nat
  csalt : List Nat
  cdata : List Nat
  encrypted : List Nat

/-- The initialiser of `ciphertext[4 * BCRYPT_BLOCKS + 1]`: the 24 bytes of
`"OrpheanBeholderScryDoubt"` and the terminating NUL. -/
def ciphertext_init : List Nat :=
  [79, 114, 112, 104, 101, 97, 110, 66, 101, 104, 111, 108, 100, 101, 114, 83,
   99, 114, 121, 68, 111, 117, 98, 116, 0]

/-- What the parsing part of `bcrypt` (lines 64 to 105) leaves in its locals:
`minor`, `logr`, `rounds` and the offset of the salt segment in `salt`. -/
structure Header where
  minor : Nat
  logr : Nat
  rounds : Nat
  off : Nat
  deriving DecidableEq

/-- Lines 64 to 105 of `bcrypt`: the checks on the salt-parameter string, up
to and including the length check of the salt segment. -/
def bcrypt_parse (salt : List Nat) : Except Result Header :=
  -- salt++;  if (*salt > BCRYPT_VERSION) return "Error 1";
  match rd salt 1 with
  | none => .error .fault
  | some v =>
    if schar v > schar BCRYPT_VERSION then .error (.error 1)
    else
      -- if (salt[1] != '$') switch (salt[1]) case 'a': minor = salt[1]; salt++;
      match rd salt 2 with
      | none => .error .fault
      | some m =>
        if m ≠ 36 ∧ m ≠ 97 then .error (.error 2)
        else
          let minor := if m ≠ 36 then m else 0
          -- salt += 2;
          let o := if m ≠ 36 then 4 else 3
          -- if (salt[2] != '$') return "Error 3";
          match rd salt (o + 2) with
          | none => .error .fault
          | some d =>
            if d ≠ 36 then .error (.error 3)
            else
              let n := atoi (salt.drop o)
              if n > 31 ∨ n < 0 then .error (.error 4)
              else
                let logr := n.toNat % 256
                let rounds := (1 <<< logr) % 2 ^ 32
                if rounds < BCRYPT_MINROUNDS then .error (.error 5)
                else
                  -- salt += 3;
                  let o := o + 3
                  if strlen (salt.drop o) * 3 / 4 < BCRYPT_MAXSALT then .error (.error 6)
                  else .ok { minor := minor, logr := logr, rounds := rounds, off := o }

/-- The value of `key_len`, a `u_int8_t`:
`strlen(key) + (minor >= 'a' ? 1 : 0)` stored into eight bits. -/
def key_len (key : List Nat) (minor : Nat) : Nat :=
  (strlen key + (if minor ≥ 97 then 1 else 0)) % 256

/-- The bytes of the buffer `key` below `key_len`, out of the password and its
terminating NUL. -/
def key_bytes (key : List Nat) (minor : Nat) : List Nat :=
  (key ++ [0]).take (key_len key minor)

/-- The loop `for (k = 0; k < rounds; k++)` of the key schedule, on the cipher
state and the log of calls. -/
def rounds_loop {σ : Type} (B : Blowfish σ) (key : List Nat) (klen : Nat)
    (csalt : List Nat) (salt_len : Nat) : Nat → σ × List Call → σ × List Call
  | 0, m => m
  | k + 1, m =>
    let st := B.expand0state m.1 key klen
    let st := B.expand0state st csalt salt_len
    rounds_loop B key klen csalt salt_len k
      (st, m.2 ++ [Call.expand0state Buf.key key klen, Call.expand0state Buf.csalt csalt salt_len])

/-- The loop `for (i = 0; i < BCRYPT_BLOCKS; i++)` that loads `cdata` from
`ciphertext` through `Blowfish_stream2word`; the state is `cdata`, `j` and the
log of calls. -/
def load_loop {σ : Type} (B : Blowfish σ) (ciphertext : List Nat) :
    List Nat → List Nat × Nat × List Call → List Nat × Nat × List Call
  | [], m => m
  | i :: is, (cdata, j, log) =>
    let r := B.stream2word (ciphertext.take (4 * BCRYPT_BLOCKS)) (4 * BCRYPT_BLOCKS) j
    load_loop B ciphertext is
      (cdata.set i (r.1 % 2 ^ 32), r.2 % 2 ^ 16,
        log ++ [Call.stream2word (4 * BCRYPT_BLOCKS) j])

/-- The loop `for (k = 0; k < 64; k++) blf_enc(&state, cdata, BCRYPT_BLOCKS / 2)`
on `cdata` and the log of calls. -/
def enc_loop {σ : Type} (B : Blowfish σ) (st : σ) : Nat → List Nat × List Call → List Nat × List Call
  | 0, m => m
  | k + 1, m =>
    enc_loop B st k
      ((B.blf_enc st m.1 (BCRYPT_BLOCKS / 2)).map (fun w => w % 2 ^ 32),
        m.2 ++ [Call.blf_enc (BCRYPT_BLOCKS / 2)])

/-- The loop `for (i = 0; i < BCRYPT_BLOCKS; i++)` that stores the words of
`cdata` into `ciphertext`, most significant byte first, shifting each word
down as it goes. -/
def unpack_loop : List Nat → List Nat × List Nat → List Nat × List Nat
  | [], m => m
  | i :: is, (ciphertext, cdata) =>
    let w := cdata.getD i 0
    let ciphertext := ciphertext.set (4 * i + 3) (w &&& 0xff)
    let w := w >>> 8
    let ciphertext := ciphertext.set (4 * i + 2) (w &&& 0xff)
    let w := w >>> 8
    let ciphertext := ciphertext.set (4 * i + 1) (w &&& 0xff)
    let w := w >>> 8
    let ciphertext := ciphertext.set (4 * i + 0) (w &&& 0xff)
    unpack_loop is (ciphertext, cdata.set i w)

/-- Lines 141 to 152 of `bcrypt`: the contents of `encrypted` once the header,
the salt and the ciphertext have been written into it. -/
def write_encrypted (T : Tables) (encrypted : List Nat) (minor logr : Nat)
    (csalt ciphertext : List Nat) : List Nat :=
  let encrypted := encrypted.set 0 36
  let encrypted := encrypted.set 1 BCRYPT_VERSION
  let encrypted := if minor ≠ 0 then encrypted.set 2 minor else encrypted
  let i := if minor ≠ 0 then 3 else 2
  let encrypted := encrypted.set i 36
  let i := i + 1
  -- _snprintf(encrypted + i, 4, "%2.2u$", logr): two digits (logr is at most 31), '$', NUL
  let encrypted := storeAt encrypted i [48 + logr / 10 % 10, 48 + logr % 10, 36, 0]
  let encrypted := storeAt encrypted (i + 3) (encode_base64 T csalt BCRYPT_MAXSALT)
  storeAt encrypted (strlen encrypted) (encode_base64 T ciphertext (4 * BCRYPT_BLOCKS - 1))

/-- The characters of a hash string: `'$'`, `'2'`, the minor character when
there is one, `'$'`, the two digits of the cost, `'$'`, the 22 characters of
the salt and the 31 characters of the ciphertext. -/
def hash_string (T : Tables) (minor logr : Nat) (csalt ciphertext : List Nat) : List Nat :=
  [36, BCRYPT_VERSION] ++ (if minor ≠ 0 then [minor] else []) ++
    [36, 48 + logr / 10 % 10, 48 + logr % 10, 36] ++
    encode_loop T csalt BCRYPT_MAXSALT 0 ++ encode_loop T ciphertext (4 * BCRYPT_BLOCKS - 1) 0

/-- Lines 109 to 138 of `bcrypt`: the key schedule, the 64 encryptions of the
constant plaintext and the unpacking of the words, from the decoded salt.
Returns the contents of `ciphertext` and the log of Blowfish calls. -/
def bcrypt_crypt {σ : Type} (B : Blowfish σ) (cdata : List Nat) (key : List Nat)
    (minor rounds : Nat) (csalt : List Nat) : List Nat × List Call :=
  let salt_len := BCRYPT_MAXSALT
  let klen := key_len key minor
  let kbytes := key_bytes key minor
  let sbytes := csalt.take salt_len
  -- Setting up S-Boxes and Subkeys
  let m : σ × List Call := (B.initstate, [Call.initstate])
  let m : σ × List Call :=
    (B.expandstate m.1 sbytes salt_len kbytes klen,
      m.2 ++ [Call.expandstate sbytes salt_len kbytes klen])
  let m := rounds_loop B kbytes klen sbytes salt_len rounds m
  -- This can be precomputed later
  let l := load_loop B ciphertext_init (List.range BCRYPT_BLOCKS) (cdata, 0, m.2)
  -- Now do the encryption
  let e := enc_loop B m.1 64 (l.1, l.2.2)
  let u := unpack_loop (List.range BCRYPT_BLOCKS) (ciphertext_init, e.1)
  (u.1, e.2)

/-- The routine `bcrypt(key, salt)`, run from the buffer contents `fr`. -/
def bcrypt_run {σ : Type} (T : Tables) (B : Blowfish σ) (fr : Frame σ)
    (key salt : List Nat) : Exit σ :=
  match bcrypt_parse salt with
  | .error r =>
    { ret := r, calls := [], state := fr.state, ciphertext := ciphertext_init,
      csalt := fr.csalt, cdata := fr.cdata, encrypted := fr.encrypted }
  | .ok h =>
    -- We dont want the base64 salt but the raw data
    match decode_base64 T fr.csalt BCRYPT_MAXSALT (salt.drop h.off) with
    | none =>
      { ret := .fault, calls := [], state := fr.state, ciphertext := ciphertext_init,
        csalt := fr.csalt, cdata := fr.cdata, encrypted := fr.encrypted }
    | some csalt =>
      let c := bcrypt_crypt B fr.cdata key h.minor h.rounds csalt
      let encrypted := write_encrypted T fr.encrypted h.minor h.logr csalt c.1
      -- memset of state, ciphertext, csalt and cdata
      { ret := .hash (cstr encrypted), calls := c.2, state := B.zero,
        ciphertext := List.replicate (4 * BCRYPT_BLOCKS + 1) 0,
        csalt := List.replicate BCRYPT_MAXSALT 0,
        cdata := List.replicate BCRYPT_BLOCKS 0,
        encrypted := encrypted }

/-- The value `bcrypt(key, salt)` returns. -/
def bcrypt {σ : Type} (T : Tables) (B : Blowfish σ) (fr : Frame σ) (key salt : List Nat) :
    Result :=
  (bcrypt_run T B fr key salt).ret

/-- The string behind the pointer `bcrypt` returns, when it returns one. -/
def Result.str : Result → Option (List Nat)
  | .hash s => some s
  | .error n => some [69, 114, 114, 111, 114, 32, 48 + n]
  | .fault => none

/-- A small stand-in for the cipher, over a one-word state; its
`stream2word` reads big-endian words, cycling through the buffer.  It
instantiates the cipher parameter in closed examples only; every general
statement below is about an arbitrary `Blowfish`. -/
def toyCipher : Blowfish Nat where
  initstate := 0x243f6a88
  expandstate := fun st data _ key _ => (st * 33 + data.sum * 7 + key.sum + 1) % 2 ^ 32
  expand0state := fun st key _ => (st * 33 + key.sum + 1) % 2 ^ 32
  stream2word := fun data n j =>
    let j0 := if j ≥ n then 0 else j
    let j1 := if j0 + 1 ≥ n then 0 else j0 + 1
    let j2 := if j1 + 1 ≥ n then 0 else j1 + 1
    let j3 := if j2 + 1 ≥ n then 0 else j2 + 1
    ((data.getD j0 0 <<< 24) ||| (data.getD j1 0 <<< 16) ||| (data.getD j2 0 <<< 8) |||
      data.getD j3 0, j3 + 1)
  blf_enc := fun st data _ => data.map (fun w => (w * 5 + st) % 2 ^ 32)
  zero := 0

/-- Buffer contents for closed examples: every uninitialised byte is `0xcc`. -/
def frame0 : Frame Nat where
  state := 7
  csalt := List.replicate 16 0xcc
  cdata := List.replicate 6 0xcccccccc
  encrypted := List.replicate 128 0xcc

/-! ## Inputs of the closed examples -/

/-- The password `"pw"`. -/
def key_pw : List Nat := [112, 119]

/-- The salt-parameter string `"$2$5x$......................"`: cost field
`"5x"`. -/
def salt_5x : List Nat := [36, 50, 36, 53, 120, 36] ++ List.replicate 22 46

/-- The salt-parameter string `"X2$04$......................"`: first
character `'X'`. -/
def salt_X : List Nat := [88, 50, 36, 48, 52, 36] ++ List.replicate 22 46

/-- The salt-parameter string `"$1$04$......................"`: version
character `'1'`. -/
def salt_v1 : List Nat := [36, 49, 36, 48, 52, 36] ++ List.replicate 22 46

/-- The salt-parameter string `"$3$04$......................"`: version
character `'3'`. -/
def salt_v3 : List Nat := [36, 51, 36, 48, 52, 36] ++ List.replicate 22 46


/-- The hash string `"$2$05$......................xu2iYHd8gCHAhX7qaWoZS5K2ySP1UGm"`. -/
def hash_5x : List Nat :=
  [36, 50, 36, 48, 53, 36] ++ List.replicate 22 46 ++
    [120, 117, 50, 105, 89, 72, 100, 56, 103, 67, 72, 65, 104, 88, 55, 113, 97, 87, 111, 90,
     83, 53, 75, 50, 121, 83, 80, 49, 85, 71, 109]

/-- The hash string `"$2$04$......................z2RGYI/zJCHJ/CLqceC9S5stbSP9xw2"`. -/
def hash_04 : List Nat :=
  [36, 50, 36, 48, 52, 36] ++ List.replicate 22 46 ++
    [122, 50, 82, 71, 89, 73, 47, 122, 74, 67, 72, 74, 47, 67, 76, 113, 99, 101, 67, 57, 83,
     53, 115, 116, 98, 83, 80, 57, 120, 119, 50]

/-- Other buffer contents for closed examples: every uninitialised byte is 0. -/
def frame1 : Frame Nat where
  state := 0
  csalt := List.replicate 16 0
  cdata := List.replicate 6 0
  encrypted := List.replicate 128 0

/-- The salt-parameter string `"$2$04$......................"`. -/
def salt_04 : List Nat := [36, 50, 36, 48, 52, 36] ++ List.replicate 22 46

/-- The salt-parameter string `"$2a$04$abcdefghijklmnopqrstuu"`. -/
def salt_2a : List Nat :=
  [36, 50, 97, 36, 48, 52, 36, 97, 98, 99, 100, 101, 102, 103, 104, 105, 106, 107, 108, 109,
   110, 111, 112, 113, 114, 115, 116, 117, 117]

/-- The salt-parameter string `"$2$04$!....................."`, whose salt
segment has 22 characters and starts with `'!'`, which is not in the
alphabet. -/
def salt_bang : List Nat := [36, 50, 36, 48, 52, 36, 33] ++ List.replicate 21 46

/-- A password of 255 bytes, `"aaa...a"`. -/
def key255 : List Nat := List.replicate 255 97

/-- A password of 256 bytes, `"aaa...a"`. -/
def key256 : List Nat := List.replicate 256 97

/-- A password of 257 bytes, `"aaa...a"`. -/
def key257 : List Nat := List.replicate 257 97

/-- The password `key257` with its third character altered to `'b'`. -/
def key257x : List Nat := [97, 97, 98] ++ List.replicate 254 97

/-- The hash string
`"$2a$04$abcdefghijklmnopqrstuu44klYJQYAyHdIQHqhgWcS69STCQR7.y"`. -/
def hash_2a : List Nat :=
  [36, 50, 97, 36, 48, 52, 36, 97, 98, 99, 100, 101, 102, 103, 104, 105, 106, 107, 108, 109,
   110, 111, 112, 113, 114, 115, 116, 117, 117, 52, 52, 107, 108, 89, 74, 81, 89, 65, 121, 72,
   100, 73, 81, 72, 113, 104, 103, 87, 99, 83, 54, 57, 83, 84, 67, 81, 82, 55, 46, 121]

/-- The hash string `"$2$04$......................W1ZP4AvlLaJU7ixq/dLGyycfdqOJuRa"`. -/
def hash_257 : List Nat :=
  [36, 50, 36, 48, 52, 36] ++ List.replicate 22 46 ++
    [87, 49, 90, 80, 52, 65, 118, 108, 76, 97, 74, 85, 55, 105, 120, 113, 47, 100, 76, 71, 121,
     121, 99, 102, 100, 113, 79, 74, 117, 82, 97]

/-- The hash string `"$2$04$xKxKxKxKxKxKxKxKxKxKx.UIT2YAET1CJKHNLq8wFtSxxOHSO.572"`,
whose salt characters encode sixteen bytes `0xcc`. -/
def hash_bang : List Nat :=
  [36, 50, 36, 48, 52, 36, 120, 75, 120, 75, 120, 75, 120, 75, 120, 75, 120, 75, 120, 75, 120,
   75, 120, 75, 120, 75, 120, 46, 85, 73, 84, 50, 89, 65, 69, 84, 49, 67, 74, 75, 72, 78, 76,
   113, 56, 119, 70, 116, 83, 120, 120, 79, 72, 83, 79, 46, 53, 55, 50]

/-- The string literal `"Error 1"`. -/
def error_1 : List Nat := [69, 114, 114, 111, 114, 32, 49]

/-- The offset of the two-character cost field in a salt-parameter string or
a hash string: 3, or 4 when the minor character `'a'` is present. -/
def cost_offset (s : List Nat) : Nat :=
  if rd s 2 = some 97 then 4 else 3

/-- The two characters at offsets `o` and `o + 1` of `s` read as a decimal
number, when both are decimal digits. -/
def decimal2 (s : List Nat) (o : Nat) : Option Nat :=
  match rd s o, rd s (o + 1) with
  | some a, some b => if isdigit a ∧ isdigit b then some (10 * (a - 48) + (b - 48)) else none
  | _, _ => none

/-- Modelled from the spec: the key byte stream of the Blowfish key schedule,
"cycling through the key buffer with modular indexing": byte `i` of the stream
is byte `i mod keybytes` of the key buffer. -/
def key_stream (key : List Nat) (keybytes : Nat) (i : Nat) : Nat :=
  key.getD (i % keybytes) 0

/-- The password `"ab"`. -/
def key_ab : List Nat := [97, 98]

/-- The password `"abab"`. -/
def key_abab : List Nat := [97, 98, 97, 98]

/-- Modelled from the spec: the key material that the key schedule of the
Blowfish routines, which are not in `BCrypt.cpp`, mixes in.  It "XORs key
material cyclically into the 18 P-array words (key bytes wrapped/repeated to
cover all P-array words)", four bytes to a 32-bit word: the first 72 bytes of
the key stream. -/
def key_window (key : List Nat) (keybytes : Nat) : List Nat :=
  (List.range 72).map (key_stream key keybytes)

/-- A password of 72 bytes, the bytes 1 to 72. -/
def key72 : List Nat := (List.range 72).map (fun i => i + 1)

/-- The bytes that a run of alphabet characters stands for in `decode_base64`:
three bytes for each full group of four characters, then one byte for two
remaining characters and two bytes for three. -/
def decode_bytes (T : Tables) : List Nat → List Nat
  | x1 :: x2 :: x3 :: x4 :: rest =>
    (((T.CHAR64 x1 <<< 2) ||| ((T.CHAR64 x2 &&& 0x30) >>> 4)) % 256) ::
    ((((T.CHAR64 x2 &&& 0x0f) <<< 4) ||| ((T.CHAR64 x3 &&& 0x3c) >>> 2)) % 256) ::
    ((((T.CHAR64 x3 &&& 0x03) <<< 6) ||| T.CHAR64 x4) % 256) :: decode_bytes T rest
  | [x1, x2, x3] =>
    [((T.CHAR64 x1 <<< 2) ||| ((T.CHAR64 x2 &&& 0x30) >>> 4)) % 256,
     (((T.CHAR64 x2 &&& 0x0f) <<< 4) ||| ((T.CHAR64 x3 &&& 0x3c) >>> 2)) % 256]
  | [x1, x2] => [((T.CHAR64 x1 <<< 2) ||| ((T.CHAR64 x2 &&& 0x30) >>> 4)) % 256]
  | _ => []

/-- The leading characters of `text` that are in the alphabet. -/
def alphabet_lead (T : Tables) (text : List Nat) : List Nat :=
  text.takeWhile (fun c => decide (T.CHAR64 c ≠ 255))

/-- The `while` loop of `decode_base64` (`decode_loop`), with the log of the
positions of `data` it reads: `*p` and `*(p + 1)` together, then `*(p + 2)`,
then `*(p + 3)`. -/
def decode_loop_log (T : Tables) (data : List Nat) (len : Nat) :
    Nat → Nat → List Nat → List Nat → Option (List Nat) × List Nat
  | 0, _, buf, log => (some buf, log)
  | n + 1, p, buf, log =>
    let log := log ++ [p, p + 1]
    match rd data p, rd data (p + 1) with
    | some x1, some x2 =>
      let c1 := T.CHAR64 x1
      let c2 := T.CHAR64 x2
      if c1 = 255 ∨ c2 = 255 then (some buf, log)
      else
        let buf := buf.set (len - (n + 1)) (((c1 <<< 2) ||| ((c2 &&& 0x30) >>> 4)) % 256)
        match n with
        | 0 => (some buf, log)
        | m + 1 =>
          let log := log ++ [p + 2]
          match rd data (p + 2) with
          | some x3 =>
            let c3 := T.CHAR64 x3
            if c3 = 255 then (some buf, log)
            else
              let buf := buf.set (len - (m + 1))
                ((((c2 &&& 0x0f) <<< 4) ||| ((c3 &&& 0x3c) >>> 2)) % 256)
              match m with
              | 0 => (some buf, log)
              | k + 1 =>
                let log := log ++ [p + 3]
                match rd data (p + 3) with
                | some x4 =>
                  let c4 := T.CHAR64 x4
                  if c4 = 255 then (some buf, log)
                  else
                    let buf := buf.set (len - (k + 1)) ((((c3 &&& 0x03) <<< 6) ||| c4) % 256)
                    decode_loop_log T data len k (p + 4) buf log
                | none => (none, log)
          | none => (none, log)
    | _, _ => (none, log)

/-- The characters of a salt-parameter string or a hash string in front of the
salt characters: `'$'`, `'2'`, the minor character when there is one, `'$'`,
the two digits of the cost, `'$'`. -/
def parameter_header (minor logr : Nat) : List Nat :=
  [36, BCRYPT_VERSION] ++ (if minor ≠ 0 then [minor] else []) ++
    [36, 48 + logr / 10 % 10, 48 + logr % 10, 36]

/-- The salt-parameter string `"$2$04$...................../"`: its 22nd salt
character `'/'` has the value 1. -/
def salt_slash : List Nat := [36, 50, 36, 48, 52, 36] ++ List.replicate 21 46 ++ [47]

end BCrypt

set_option maxRecDepth 1000000

namespace BCrypt

/-! ## Lemmas on memory -/

theorem Bytes.getD_lt {l : List Nat} (h : Bytes l) (i : Nat) : l.getD i 0 < 256 := by
  by_cases hi : i < l.length
  · rw [List.getD_eq_getElem _ _ hi]
    exact h _ (List.getElem_mem _)
  · rw [List.getD_eq_default _ _ (by omega)]
    omega

theorem rd_of_drop {s : List Nat} {p a : Nat} {tl : List Nat} (h : s.drop p = a :: tl) :
    rd s p = some a := by
  have hp : p < s.length := by
    by_contra hc
    rw [List.drop_eq_nil_of_le (by omega)] at h
    cases h
  have h2 := List.drop_eq_getElem_cons hp
  rw [h] at h2
  injection h2 with h3 _
  rw [rd, if_pos (Nat.le_of_lt hp), List.getD_eq_getElem _ _ hp, h3]

theorem drop_succ_of_drop {s : List Nat} {p a : Nat} {tl : List Nat} (h : s.drop p = a :: tl) :
    s.drop (p + 1) = tl := by
  have h2 : s.drop (p + 1) = (s.drop p).drop 1 := by
    rw [List.drop_drop]
  rw [h2, h]; rfl

theorem take_drop_succ (l : List Nat) (q n : Nat) (h : q < l.length) :
    (l.drop q).take (n + 1) = l.getD q 0 :: (l.drop (q + 1)).take n := by
  rw [List.drop_eq_getElem_cons h, List.take_succ_cons, List.getD_eq_getElem _ _ h]

/-! ## The bit arithmetic of one base64 group -/

theorem group_byte1 : ∀ a < 256, ∀ h < 16,
    (((a >>> 2) <<< 2) ||| ((((((a &&& 0x03) <<< 4) % 256) ||| h) &&& 0x30) >>> 4)) % 256
      = a := by
  decide

theorem group_byte1_last : ∀ a < 256,
    (((a >>> 2) <<< 2) ||| (((((a &&& 0x03) <<< 4) % 256) &&& 0x30) >>> 4)) % 256 = a := by
  decide

theorem group_byte2 : ∀ x < 4, ∀ b < 256, ∀ w < 4,
    ((((((x <<< 4) % 256) ||| ((b >>> 4) &&& 0x0f)) &&& 0x0f) <<< 4) |||
      ((((((b &&& 0x0f) <<< 2) % 256) ||| w) &&& 0x3c) >>> 2)) % 256 = b := by
  decide

theorem group_byte2_last : ∀ x < 4, ∀ b < 256,
    ((((((x <<< 4) % 256) ||| ((b >>> 4) &&& 0x0f)) &&& 0x0f) <<< 4) |||
      (((((b &&& 0x0f) <<< 2) % 256) &&& 0x3c) >>> 2)) % 256 = b := by
  decide

theorem group_byte3 : ∀ z < 16, ∀ c < 256,
    ((((((z <<< 2) % 256) ||| ((c >>> 6) &&& 0x03)) &&& 0x03) <<< 6) ||| (c &&& 0x3f)) % 256
      = c := by
  decide

theorem sextet1 : ∀ a < 256, a >>> 2 < 64 := by decide

theorem sextet2 : ∀ x < 4, ∀ h < 16, (((x <<< 4) % 256) ||| h) < 64 := by decide

theorem sextet2_last : ∀ x < 4, ((x <<< 4) % 256) < 64 := by decide

theorem sextet3 : ∀ z < 16, ∀ w < 4, (((z <<< 2) % 256) ||| w) < 64 := by decide

theorem sextet3_last : ∀ z < 16, ((z <<< 2) % 256) < 64 := by decide

theorem and_lt_succ (a m : Nat) : a &&& m < m + 1 :=
  Nat.lt_succ_of_le Nat.and_le_right


/-! ## Decoding what was encoded -/

theorem decode_encode_aux (T : Tables) (hT : T.Inverse) (data text post : List Nat) (len : Nat)
    (hd : Bytes data) :
    ∀ n p q buf, text.drop p = encode_loop T data n q ++ post → n ≤ len →
      q + n ≤ data.length →
      decode_loop T text len n p buf = some (storeAt buf (len - n) ((data.drop q).take n)) := by
  intro n
  induction n using Nat.strong_induction_on with
  | _ n ih =>
    intro p q buf htext hn hq
    match n with
    | 0 => simp [decode_loop, storeAt]
    | 1 =>
      have ha := hd.getD_lt q
      simp only [encode_loop, List.cons_append, List.nil_append] at htext
      have r0 := rd_of_drop htext
      have r1 := rd_of_drop (drop_succ_of_drop htext)
      have e1 := sextet1 _ ha
      have e2 := sextet2_last _ (and_lt_succ (data.getD q 0) 3)
      rw [decode_loop]
      simp only [r0, r1, hT _ e1, hT _ e2]
      rw [if_neg (by omega)]
      rw [take_drop_succ _ _ _ (by omega)]
      simp only [List.take_zero, storeAt, group_byte1_last _ ha]
    | 2 =>
      have ha := hd.getD_lt q
      have hb := hd.getD_lt (q + 1)
      simp only [encode_loop, List.cons_append, List.nil_append] at htext
      have t1 := drop_succ_of_drop htext
      have t2 := drop_succ_of_drop t1
      have r0 := rd_of_drop htext
      have r1 := rd_of_drop t1
      have r2 := rd_of_drop t2
      have e1 := sextet1 _ ha
      have e2 := sextet2 _ (and_lt_succ (data.getD q 0) 3) _
        (and_lt_succ (data.getD (q + 1) 0 >>> 4) 15)
      have e3 := sextet3_last _ (and_lt_succ (data.getD (q + 1) 0) 15)
      rw [decode_loop]
      simp only [r0, r1, r2, hT _ e1, hT _ e2, hT _ e3]
      rw [if_neg (by omega), if_neg (by omega)]
      rw [take_drop_succ _ _ _ (by omega), take_drop_succ _ _ _ (by omega)]
      simp only [List.take_zero, storeAt,
        group_byte1 _ ha _ (and_lt_succ (data.getD (q + 1) 0 >>> 4) 15),
        group_byte2_last _ (and_lt_succ (data.getD q 0) 3) _ hb]
      have h1 : len - (0 + 1) = len - 2 + 1 := by omega
      rw [h1]
    | k + 3 =>
      have ha := hd.getD_lt q
      have hb := hd.getD_lt (q + 1)
      have hc := hd.getD_lt (q + 2)
      simp only [encode_loop, List.cons_append, List.nil_append] at htext
      have t1 := drop_succ_of_drop htext
      have t2 := drop_succ_of_drop t1
      have t3 := drop_succ_of_drop t2
      have t4 := drop_succ_of_drop t3
      have r0 := rd_of_drop htext
      have r1 := rd_of_drop t1
      have r2 := rd_of_drop t2
      have r3 := rd_of_drop t3
      have e1 := sextet1 _ ha
      have e2 := sextet2 _ (and_lt_succ (data.getD q 0) 3) _
        (and_lt_succ (data.getD (q + 1) 0 >>> 4) 15)
      have e3 := sextet3 _ (and_lt_succ (data.getD (q + 1) 0) 15) _
        (and_lt_succ (data.getD (q + 2) 0 >>> 6) 3)
      have e4 := and_lt_succ (data.getD (q + 2) 0) 63
      rw [decode_loop]
      simp only [r0, r1, r2, r3, hT _ e1, hT _ e2, hT _ e3, hT _ e4]
      rw [if_neg (by omega), if_neg (by omega), if_neg (by omega)]
      rw [ih k (by omega) (p + 4) (q + 3) _ t4 (by omega) (by omega)]
      rw [take_drop_succ _ _ _ (by omega), take_drop_succ _ _ _ (by omega),
        take_drop_succ _ _ _ (by omega)]
      simp only [storeAt,
        group_byte1 _ ha _ (and_lt_succ (data.getD (q + 1) 0 >>> 4) 15),
        group_byte2 _ (and_lt_succ (data.getD q 0) 3) _ hb _
          (and_lt_succ (data.getD (q + 2) 0 >>> 6) 3),
        group_byte3 _ (and_lt_succ (data.getD (q + 1) 0) 15) _ hc]
      have h1 : len - (k + 1 + 1) = len - (k + 3) + 1 := by omega
      have h2 : len - (k + 1) = len - (k + 3) + 1 + 1 := by omega
      have h3 : len - k = len - (k + 3) + 1 + 1 + 1 := by omega
      rw [h1, h2, h3]

theorem storeAt_length (bs : List Nat) : ∀ (buf : List Nat) (off : Nat),
    (storeAt buf off bs).length = buf.length := by
  induction bs with
  | nil => intro buf off; rfl
  | cons b bs ih => intro buf off; rw [storeAt, ih, List.length_set]

theorem storeAt_eq (bs : List Nat) : ∀ (buf : List Nat) (off : Nat),
    off + bs.length ≤ buf.length →
    storeAt buf off bs = buf.take off ++ bs ++ buf.drop (off + bs.length) := by
  induction bs with
  | nil => intro buf off _; simp [storeAt]
  | cons b bs ih =>
    intro buf off h
    simp only [List.length_cons] at h
    rw [storeAt, ih _ _ (by rw [List.length_set]; omega)]
    rw [List.set_eq_take_append_cons_drop, if_pos (by omega)]
    have h1 : (List.take off buf ++ b :: List.drop (off + 1) buf).take (off + 1)
        = List.take off buf ++ [b] := by
      rw [List.take_append_eq_append_take]
      simp [List.length_take, Nat.min_eq_left (show off ≤ buf.length by omega)]
    have h2 : (List.take off buf ++ b :: List.drop (off + 1) buf).drop (off + 1 + bs.length)
        = List.drop (off + (bs.length + 1)) buf := by
      rw [List.drop_append_eq_append_drop]
      simp [List.length_take, Nat.min_eq_left (show off ≤ buf.length by omega)]
      rw [List.drop_eq_nil_of_le (by simp; omega)]
      have : off + 1 + bs.length - off = (bs.length) + 1 := by omega
      rw [this]
      simp [List.drop_drop]
      congr 1; omega
    rw [h1, h2]
    simp

theorem storeAt_zero_full (buf bs : List Nat) (h : bs.length = buf.length) :
    storeAt buf 0 bs = bs := by
  rw [storeAt_eq _ _ _ (by omega)]
  simp [h]

theorem bcryptTables_inverse : bcryptTables.Inverse := by
  intro i hi
  simp only [bcryptTables]
  split_ifs <;> omega

theorem bcryptTables_nulFree : bcryptTables.NulFree := by
  intro i hi
  simp only [bcryptTables]
  split_ifs <;> omega

/-- C4: with an index table that undoes the alphabet table on 0..63, decoding
with `maxBytes` 16 the text `encode_base64` writes for 16 bytes gives the 16
bytes back, and decoding with `maxBytes` 23 the text it writes for 23 bytes
gives the 23 bytes back. -/
theorem base64_roundtrip (T : Tables) (hT : T.Inverse) (x y b16 b23 : List Nat)
    (hx : x.length = 16) (hxb : Bytes x) (hy : y.length = 23) (hyb : Bytes y)
    (h16 : b16.length = 16) (h23 : b23.length = 23) :
    decode_base64 T b16 16 (encode_base64 T x 16).dropLast = some x ∧
      decode_base64 T b23 23 (encode_base64 T y 23).dropLast = some y := by
  constructor
  · rw [encode_base64, List.dropLast_concat, decode_base64,
      decode_encode_aux T hT x _ [] 16 hxb 16 0 0 b16 (by simp) (by omega) (by omega)]
    simp only [Nat.sub_self, List.drop_zero]
    rw [List.take_of_length_le (by omega), storeAt_zero_full _ _ (by omega)]
  · rw [encode_base64, List.dropLast_concat, decode_base64,
      decode_encode_aux T hT y _ [] 23 hyb 23 0 0 b23 (by simp) (by omega) (by omega)]
    simp only [Nat.sub_self, List.drop_zero]
    rw [List.take_of_length_le (by omega), storeAt_zero_full _ _ (by omega)]

/-- C4 at the bcrypt tables, the bytes 0..15 and 0..22, and zeroed buffers. -/
theorem base64_roundtrip_witness :
    decode_base64 bcryptTables (List.replicate 16 0) 16
        (encode_base64 bcryptTables (List.range 16) 16).dropLast = some (List.range 16) ∧
      decode_base64 bcryptTables (List.replicate 23 0) 23
        (encode_base64 bcryptTables (List.range 23) 23).dropLast = some (List.range 23) :=
  base64_roundtrip bcryptTables bcryptTables_inverse (List.range 16) (List.range 23)
    (List.replicate 16 0) (List.replicate 23 0) (by decide) (by unfold Bytes; decide)
    (by decide) (by unfold Bytes; decide) (by decide) (by decide)

/-! ## `decode_base64` returns -/

theorem rd_of_le {s : List Nat} {i : Nat} (h : i ≤ s.length) : rd s i = some (s.getD i 0) := by
  rw [rd, if_pos h]

theorem Bytes.set {l : List Nat} (h : Bytes l) (i v : Nat) (hv : v < 256) : Bytes (l.set i v) := by
  intro b hb
  rcases List.mem_or_eq_of_mem_set hb with h1 | h1
  · exact h b h1
  · omega

/-- When the reads of `decode_loop` stay inside the string and its terminator,
it returns a buffer, of the same length, of bytes when it started from
bytes. -/
theorem decode_loop_total (T : Tables) (data : List Nat) (len : Nat) :
    ∀ n p buf, (n = 0 ∨ p + n + (n - 1) / 3 ≤ data.length) →
      ∃ out, decode_loop T data len n p buf = some out ∧ out.length = buf.length ∧
        (Bytes buf → Bytes out) := by
  intro n
  induction n using Nat.strong_induction_on with
  | _ n ih =>
    intro p buf h
    match n with
    | 0 => exact ⟨buf, by simp [decode_loop], rfl, id⟩
    | 1 =>
      rw [decode_loop, rd_of_le (by omega), rd_of_le (by omega)]
      simp only
      split_ifs
      · exact ⟨buf, rfl, rfl, id⟩
      · exact ⟨_, rfl, by simp, fun hb => hb.set _ _ (Nat.mod_lt _ (by omega))⟩
    | 2 =>
      rw [decode_loop, rd_of_le (by omega), rd_of_le (by omega)]
      simp only [rd_of_le (show p + 2 ≤ data.length by omega)]
      split_ifs
      · exact ⟨buf, rfl, rfl, id⟩
      · exact ⟨_, rfl, by simp, fun hb => hb.set _ _ (Nat.mod_lt _ (by omega))⟩
      · exact ⟨_, rfl, by simp, fun hb =>
          (hb.set _ _ (Nat.mod_lt _ (by omega))).set _ _ (Nat.mod_lt _ (by omega))⟩
    | k + 3 =>
      rw [decode_loop, rd_of_le (by omega), rd_of_le (by omega)]
      simp only [rd_of_le (show p + 2 ≤ data.length by omega),
        rd_of_le (show p + 3 ≤ data.length by omega)]
      split_ifs
      · exact ⟨buf, rfl, rfl, id⟩
      · exact ⟨_, rfl, by simp, fun hb => hb.set _ _ (Nat.mod_lt _ (by omega))⟩
      · exact ⟨_, rfl, by simp, fun hb =>
          (hb.set _ _ (Nat.mod_lt _ (by omega))).set _ _ (Nat.mod_lt _ (by omega))⟩
      · obtain ⟨out, h1, h2, h3⟩ := ih k (by omega) (p + 4)
          (((buf.set (len - (k + 1 + 1 + 1)) _).set (len - (k + 1 + 1)) _).set (len - (k + 1)) _)
          (by omega)
        refine ⟨out, h1, by rw [h2]; simp, fun hb => h3 ?_⟩
        exact ((hb.set _ _ (Nat.mod_lt _ (by omega))).set _ _ (Nat.mod_lt _ (by omega))).set
          _ _ (Nat.mod_lt _ (by omega))

/-! ## The checks on the salt-parameter string -/

theorem atoi_two_digits (d1 d2 : Nat) (rest : List Nat) (h1 : 48 ≤ d1 ∧ d1 ≤ 57)
    (h2 : 48 ≤ d2 ∧ d2 ≤ 57) :
    atoi (d1 :: d2 :: 36 :: rest) = ((10 * (d1 - 48) + (d2 - 48) : Nat) : Int) := by
  have s1 : isspace d1 = false := by simp [isspace]; omega
  have g1 : isdigit d1 = true := by simp [isdigit]; omega
  have g2 : isdigit d2 = true := by simp [isdigit]; omega
  have g3 : isdigit 36 = false := by decide
  rw [atoi, List.dropWhile_cons, s1]
  simp only [Bool.false_eq_true, if_false]
  split
  · rename_i r heq; injection heq with h _; omega
  · rename_i r heq; injection heq with h _; omega
  · simp only [atoi_digits, g1, g2, g3, if_true, Bool.false_eq_true, if_false]
    omega

theorem rounds_small (c : Nat) (h : c < 4) : (1 <<< c) % 2 ^ 32 < BCRYPT_MINROUNDS := by
  unfold BCRYPT_MINROUNDS
  interval_cases c <;> decide

theorem rounds_large (c : Nat) (h1 : 4 ≤ c) (h2 : c ≤ 31) :
    ¬ (1 <<< c) % 2 ^ 32 < BCRYPT_MINROUNDS := by
  unfold BCRYPT_MINROUNDS
  interval_cases c <;> decide

theorem bcrypt_run_of_parse_error {σ : Type} (T : Tables) (B : Blowfish σ) (fr : Frame σ)
    (key salt : List Nat) (r : Result) (h : bcrypt_parse salt = .error r) :
    (bcrypt_run T B fr key salt).ret = r ∧ (bcrypt_run T B fr key salt).calls = [] := by
  simp [bcrypt_run, h]

/-- The parse of a salt-parameter string that has passed the version, minor
and separator checks, in terms of the value `atoi` reads from the cost
field. -/
theorem bcrypt_parse_cost (pre rest : List Nat) (x v y c1 c2 : Nat)
    (hpre : pre = [x, v, 36] ∨ pre = [x, v, 97, y]) (hv : schar v ≤ 50) :
    bcrypt_parse (pre ++ c1 :: c2 :: 36 :: rest) =
      (let n := atoi (c1 :: c2 :: 36 :: rest)
       if n > 31 ∨ n < 0 then .error (.error 4)
       else if (1 <<< (n.toNat % 256)) % 2 ^ 32 < BCRYPT_MINROUNDS then .error (.error 5)
       else if strlen rest * 3 / 4 < BCRYPT_MAXSALT then .error (.error 6)
       else .ok { minor := if pre.length = 4 then 97 else 0, logr := n.toNat % 256,
                  rounds := (1 <<< (n.toNat % 256)) % 2 ^ 32, off := pre.length + 3 }) := by
  have hv2 : ¬ schar v > schar BCRYPT_VERSION := by
    have : schar BCRYPT_VERSION = 50 := by decide
    omega
  rcases hpre with h | h <;> subst h <;>
    simp [bcrypt_parse, rd, hv2]

/-- The part of `bcrypt_parse` that follows the version and minor checks, from
the offset `o` of the cost field. -/
theorem bcrypt_parse_tail_inv (salt : List Nat) (minor o : Nat) (hd : Header)
    (h : (match rd salt (o + 2) with
          | none => (.error .fault : Except Result Header)
          | some d =>
            if d ≠ 36 then .error (.error 3)
            else
              let n := atoi (salt.drop o)
              if n > 31 ∨ n < 0 then .error (.error 4)
              else
                let logr := n.toNat % 256
                let rounds := (1 <<< logr) % 2 ^ 32
                if rounds < BCRYPT_MINROUNDS then .error (.error 5)
                else
                  let o := o + 3
                  if strlen (salt.drop o) * 3 / 4 < BCRYPT_MAXSALT then .error (.error 6)
                  else .ok { minor := minor, logr := logr, rounds := rounds, off := o }) = .ok hd) :
    hd.minor = minor ∧ hd.off = o + 3 ∧ rd salt (o + 2) = some 36 ∧
      0 ≤ atoi (salt.drop o) ∧ atoi (salt.drop o) ≤ 31 ∧
      hd.logr = (atoi (salt.drop o)).toNat % 256 ∧
      hd.rounds = (1 <<< hd.logr) % 2 ^ 32 ∧ BCRYPT_MINROUNDS ≤ hd.rounds ∧
      BCRYPT_MAXSALT ≤ strlen (salt.drop hd.off) * 3 / 4 := by
  split at h
  · cases h
  · rename_i d hd2
    dsimp only at h
    split_ifs at h with h3 h4 h5 h6
    injection h with h
    subst h
    refine ⟨rfl, rfl, ?_, by omega, by omega, rfl, rfl, Nat.le_of_not_lt h5,
      Nat.le_of_not_lt h6⟩
    rw [hd2]
    congr 1
    omega

/-- What an accepted salt-parameter string has passed. -/
theorem bcrypt_parse_ok_inv (salt : List Nat) (hd : Header) (h : bcrypt_parse salt = .ok hd) :
    ∃ v m o, rd salt 1 = some v ∧ schar v ≤ schar BCRYPT_VERSION ∧ rd salt 2 = some m ∧
      (m = 36 ∧ o = 3 ∧ hd.minor = 0 ∨ m = 97 ∧ o = 4 ∧ hd.minor = 97) ∧
      hd.off = o + 3 ∧ rd salt (o + 2) = some 36 ∧
      0 ≤ atoi (salt.drop o) ∧ atoi (salt.drop o) ≤ 31 ∧
      hd.logr = (atoi (salt.drop o)).toNat % 256 ∧
      hd.rounds = (1 <<< hd.logr) % 2 ^ 32 ∧ BCRYPT_MINROUNDS ≤ hd.rounds ∧
      BCRYPT_MAXSALT ≤ strlen (salt.drop hd.off) * 3 / 4 := by
  unfold bcrypt_parse at h
  split at h
  · cases h
  · rename_i v hv
    by_cases h1 : schar v > schar BCRYPT_VERSION
    · rw [if_pos h1] at h; cases h
    · rw [if_neg h1] at h
      split at h
      · cases h
      · rename_i m hm
        by_cases h2 : m ≠ 36 ∧ m ≠ 97
        · rw [if_pos h2] at h; cases h
        · rw [if_neg h2] at h
          by_cases h3 : m = 36
          · subst h3
            simp only [ne_eq, not_true_eq_false, if_false] at h
            obtain ⟨a1, a2, a3, a4, a5, a6, a7, a8, a9⟩ := bcrypt_parse_tail_inv salt 0 3 hd h
            exact ⟨v, 36, 3, hv, by omega, hm, Or.inl ⟨rfl, rfl, a1⟩, a2, a3, a4, a5, a6, a7,
              a8, a9⟩
          · have h4 : m = 97 := by omega
            subst h4
            simp only [ne_eq, Nat.reduceEqDiff, not_false_eq_true, if_true] at h
            obtain ⟨a1, a2, a3, a4, a5, a6, a7, a8, a9⟩ := bcrypt_parse_tail_inv salt 97 4 hd h
            exact ⟨v, 97, 4, hv, by omega, hm, Or.inr ⟨rfl, rfl, a1⟩, a2, a3, a4, a5, a6, a7,
              a8, a9⟩

theorem bcrypt_hash_inv {σ : Type} (T : Tables) (B : Blowfish σ) (fr : Frame σ)
    (key salt h : List Nat) (hh : bcrypt T B fr key salt = .hash h) :
    ∃ hd csalt, bcrypt_parse salt = .ok hd ∧
      decode_base64 T fr.csalt BCRYPT_MAXSALT (salt.drop hd.off) = some csalt ∧
      h = cstr (write_encrypted T fr.encrypted hd.minor hd.logr csalt
        (bcrypt_crypt B fr.cdata key hd.minor hd.rounds csalt).1) := by
  unfold bcrypt bcrypt_run at hh
  split at hh
  · rename_i r hr
    unfold bcrypt_parse at hr
    split at hr
    · simp only at hh; injection hr with hr; subst hr; cases hh
    · split_ifs at hr
      · simp only at hh; injection hr with hr; subst hr; cases hh
      · split at hr
        · simp only at hh; injection hr with hr; subst hr; cases hh
        · dsimp only at hr
          split_ifs at hr <;>
            first
            | (simp only at hh; injection hr with hr; subst hr; cases hh)
            | (split at hr
               · simp only at hh; injection hr with hr; subst hr; cases hh
               · split_ifs at hr <;> simp only at hh <;> injection hr with hr <;> subst hr <;>
                   cases hh)
  · rename_i hd hp
    split at hh
    · cases hh
    · rename_i csalt hc
      simp only at hh
      injection hh with hh
      exact ⟨hd, csalt, hp, hc, hh.symm⟩

theorem decode_salt_total (T : Tables) (salt buf : List Nat) (hd : Header)
    (hp : bcrypt_parse salt = .ok hd) :
    ∃ csalt, decode_base64 T buf BCRYPT_MAXSALT (salt.drop hd.off) = some csalt ∧
      csalt.length = buf.length ∧ (Bytes buf → Bytes csalt) := by
  obtain ⟨v, m, o, _, _, _, _, _, _, _, _, _, _, _, hs⟩ := bcrypt_parse_ok_inv salt hd hp
  have h1 : strlen (salt.drop hd.off) ≤ (salt.drop hd.off).length := by
    unfold strlen
    exact (List.takeWhile_sublist _).length_le
  unfold BCRYPT_MAXSALT at hs ⊢
  unfold decode_base64
  exact decode_loop_total T _ 16 16 0 buf (Or.inr (by omega))

theorem bcrypt_accepts {σ : Type} (T : Tables) (B : Blowfish σ) (fr : Frame σ)
    (key salt : List Nat) (hd : Header) (hp : bcrypt_parse salt = .ok hd) :
    ∃ h, bcrypt T B fr key salt = .hash h := by
  obtain ⟨csalt, hc, _⟩ := decode_salt_total T salt fr.csalt hd hp
  refine ⟨cstr (write_encrypted T fr.encrypted hd.minor hd.logr csalt
    (bcrypt_crypt B fr.cdata key hd.minor hd.rounds csalt).1), ?_⟩
  simp only [bcrypt, bcrypt_run, hp, hc]

theorem bcrypt_error_inv {σ : Type} (T : Tables) (B : Blowfish σ) (fr : Frame σ)
    (key salt : List Nat) (n : Nat) (h : bcrypt T B fr key salt = .error n) :
    bcrypt_parse salt = .error (.error n) := by
  unfold bcrypt bcrypt_run at h
  split at h
  · rename_i r hr
    simp only at h
    rw [hr, h]
  · split at h <;> cases h

theorem bcrypt_parse_error_one (salt : List Nat) (v : Nat) (hv : rd salt 1 = some v) :
    bcrypt_parse salt = .error (.error 1) ↔ schar v > schar BCRYPT_VERSION := by
  constructor
  · intro h
    by_contra hc
    unfold bcrypt_parse at h
    rw [hv] at h
    simp only [if_neg hc] at h
    split at h
    · cases h
    · split_ifs at h <;>
        first
        | (simp at h; done)
        | (split at h <;>
            first
            | (simp at h; done)
            | (split_ifs at h <;> simp at h))
  · intro h
    unfold bcrypt_parse
    rw [hv]
    simp only [if_pos h]

/-! ## The cost, separator and version checks (C5 to C8) -/

/-- C5: for a salt-parameter string that has passed the version, minor and
separator checks and whose cost field is two decimal digits of value `c`: when
`c` is outside [4, 31], `bcrypt` returns `"Error 4"` or `"Error 5"` and has
called no Blowfish routine; when `c` is inside [4, 31], it returns neither. -/
theorem cost_range_checked {σ : Type} (T : Tables) (B : Blowfish σ) (fr : Frame σ)
    (key pre rest : List Nat) (x v y d1 d2 : Nat)
    (hpre : pre = [x, v, 36] ∨ pre = [x, v, 97, y]) (hv : schar v ≤ schar BCRYPT_VERSION)
    (hd1 : 48 ≤ d1 ∧ d1 ≤ 57) (hd2 : 48 ≤ d2 ∧ d2 ≤ 57) :
    (10 * (d1 - 48) + (d2 - 48) < 4 ∨ 31 < 10 * (d1 - 48) + (d2 - 48) →
      (bcrypt T B fr key (pre ++ d1 :: d2 :: 36 :: rest) = .error 4 ∨
        bcrypt T B fr key (pre ++ d1 :: d2 :: 36 :: rest) = .error 5) ∧
      (bcrypt_run T B fr key (pre ++ d1 :: d2 :: 36 :: rest)).calls = []) ∧
    (4 ≤ 10 * (d1 - 48) + (d2 - 48) ∧ 10 * (d1 - 48) + (d2 - 48) ≤ 31 →
      bcrypt T B fr key (pre ++ d1 :: d2 :: 36 :: rest) ≠ .error 4 ∧
      bcrypt T B fr key (pre ++ d1 :: d2 :: 36 :: rest) ≠ .error 5) := by
  have hv2 : schar v ≤ 50 := by
    have : schar BCRYPT_VERSION = 50 := by decide
    omega
  have hp := bcrypt_parse_cost pre rest x v y d1 d2 hpre hv2
  rw [atoi_two_digits d1 d2 rest hd1 hd2] at hp
  dsimp only at hp
  generalize 10 * (d1 - 48) + (d2 - 48) = c at hp ⊢
  rw [Int.toNat_ofNat] at hp
  constructor
  · intro hc
    by_cases h31 : 31 < c
    · rw [if_pos (Or.inl (by omega))] at hp
      have := bcrypt_run_of_parse_error T B fr key _ _ hp
      exact ⟨Or.inl this.1, this.2⟩
    · have hc4 : c < 4 := by omega
      rw [if_neg (by omega), Nat.mod_eq_of_lt (show c < 256 by omega), if_pos (rounds_small c hc4)] at hp
      have := bcrypt_run_of_parse_error T B fr key _ _ hp
      exact ⟨Or.inr this.1, this.2⟩
  · intro hc
    rw [if_neg (by omega), Nat.mod_eq_of_lt (show c < 256 by omega), if_neg (rounds_large c hc.1 hc.2)] at hp
    constructor
    · intro he
      rw [bcrypt_error_inv T B fr key _ _ he] at hp
      split_ifs at hp
      cases hp
    · intro he
      rw [bcrypt_error_inv T B fr key _ _ he] at hp
      split_ifs at hp
      cases hp

/-- C5 at `"$2$32$......................"`: cost 32 is answered by a cost
error and no Blowfish call. -/
theorem cost_range_checked_witness :
    (bcrypt bcryptTables toyCipher frame0 key_pw
        ([36, 50, 36] ++ 51 :: 50 :: 36 :: List.replicate 22 46) = .error 4 ∨
      bcrypt bcryptTables toyCipher frame0 key_pw
        ([36, 50, 36] ++ 51 :: 50 :: 36 :: List.replicate 22 46) = .error 5) ∧
    (bcrypt_run bcryptTables toyCipher frame0 key_pw
        ([36, 50, 36] ++ 51 :: 50 :: 36 :: List.replicate 22 46)).calls = [] :=
  (cost_range_checked bcryptTables toyCipher frame0 key_pw [36, 50, 36] (List.replicate 22 46)
    36 50 0 51 50 (Or.inl rfl) (by decide) (by decide) (by decide)).1 (by decide)

/-- C6, as stated, fails: the cost field `"5x"` of
`"$2$5x$......................"` is not two decimal digits, and `bcrypt`
returns a hash for it, whatever the tables, the cipher, the buffers and the
password are. -/
theorem cost_field_counterexample :
    rd salt_5x 3 = some 53 ∧ rd salt_5x 4 = some 120 ∧ isdigit 120 = false ∧
      (∀ (σ : Type) (T : Tables) (B : Blowfish σ) (fr : Frame σ) (key : List Nat),
        ∃ h, bcrypt T B fr key salt_5x = .hash h) ∧
      bcrypt bcryptTables toyCipher frame0 key_pw salt_5x = .hash hash_5x :=
  ⟨by decide, by decide, by decide,
    fun _ T B fr key => bcrypt_accepts T B fr key salt_5x
      { minor := 0, logr := 5, rounds := 32, off := 6 } (by rfl),
    by decide⟩

/-- C6, amended: when `bcrypt` returns a hash, the number `atoi` reads at the
cost field (optional white space and sign, then the leading decimal digits; 0
when there is none) lies in [4, 31].  The cost field starts at offset 3, or at
offset 4 when the minor character `'a'` is present. -/
theorem cost_field_atoi {σ : Type} (T : Tables) (B : Blowfish σ) (fr : Frame σ)
    (key salt h : List Nat) (hh : bcrypt T B fr key salt = .hash h) :
    ∃ o, (rd salt 2 = some 36 ∧ o = 3 ∨ rd salt 2 = some 97 ∧ o = 4) ∧
      4 ≤ atoi (salt.drop o) ∧ atoi (salt.drop o) ≤ 31 := by
  obtain ⟨hd, csalt, hp, _, _⟩ := bcrypt_hash_inv T B fr key salt h hh
  obtain ⟨v, m, o, _, _, hm, hmo, _, _, h0, h31, hl, hr, hmin, _⟩ :=
    bcrypt_parse_ok_inv salt hd hp
  refine ⟨o, ?_, ?_, h31⟩
  · rcases hmo with ⟨h1, h2, _⟩ | ⟨h1, h2, _⟩
    · exact Or.inl ⟨by rw [hm, h1], h2⟩
    · exact Or.inr ⟨by rw [hm, h1], h2⟩
  · by_contra hc
    have h4 : (atoi (salt.drop o)).toNat < 4 := by omega
    have h5 : hd.logr = (atoi (salt.drop o)).toNat := by
      rw [hl, Nat.mod_eq_of_lt (by omega)]
    have := rounds_small _ h4
    rw [← h5, ← hr] at this
    omega

/-- C6 amended, at `"$2$5x$......................"`: `atoi` reads 5. -/
theorem cost_field_atoi_witness :
    ∃ o, (rd salt_5x 2 = some 36 ∧ o = 3 ∨ rd salt_5x 2 = some 97 ∧ o = 4) ∧
      4 ≤ atoi (salt_5x.drop o) ∧ atoi (salt_5x.drop o) ≤ 31 :=
  cost_field_atoi bcryptTables toyCipher frame0 key_pw salt_5x hash_5x (by decide)

/-- C7, as stated, fails: the first character of
`"X2$04$......................"` is `'X'`, not `'$'`, and `bcrypt` returns a
hash for it, whatever the tables, the cipher, the buffers and the password
are. -/
theorem separator_counterexample :
    rd salt_X 0 = some 88 ∧ 88 ≠ 36 ∧
      (∀ (σ : Type) (T : Tables) (B : Blowfish σ) (fr : Frame σ) (key : List Nat),
        ∃ h, bcrypt T B fr key salt_X = .hash h) ∧
      bcrypt bcryptTables toyCipher frame0 key_pw salt_X = .hash hash_04 :=
  ⟨by decide, by decide,
    fun _ T B fr key => bcrypt_accepts T B fr key salt_X
      { minor := 0, logr := 4, rounds := 16, off := 6 } (by rfl),
    by decide⟩

/-- C7, amended: when `bcrypt` returns a hash, the character after the version
character is `'$'` or the minor character `'a'`, and the character after the
two-character cost field (index 5 without a minor character, index 6 with
one) is `'$'`. -/
theorem separators_checked {σ : Type} (T : Tables) (B : Blowfish σ) (fr : Frame σ)
    (key salt h : List Nat) (hh : bcrypt T B fr key salt = .hash h) :
    (rd salt 2 = some 36 ∧ rd salt 5 = some 36) ∨
      (rd salt 2 = some 97 ∧ rd salt 6 = some 36) := by
  obtain ⟨hd, csalt, hp, _, _⟩ := bcrypt_hash_inv T B fr key salt h hh
  obtain ⟨v, m, o, _, _, hm, hmo, _, hsep, _⟩ := bcrypt_parse_ok_inv salt hd hp
  rcases hmo with ⟨h1, h2, _⟩ | ⟨h1, h2, _⟩
  · subst h1 h2; exact Or.inl ⟨hm, hsep⟩
  · subst h1 h2; exact Or.inr ⟨hm, hsep⟩

/-- C7 amended, at `"X2$04$......................"`. -/
theorem separators_checked_witness :
    (rd salt_X 2 = some 36 ∧ rd salt_X 5 = some 36) ∨
      (rd salt_X 2 = some 97 ∧ rd salt_X 6 = some 36) :=
  separators_checked bcryptTables toyCipher frame0 key_pw salt_X hash_04 (by decide)

/-- C8, as stated, fails: the version character of
`"$1$04$......................"` is `'1'`, not `'2'`, and `bcrypt` returns a
hash for it, whatever the tables, the cipher, the buffers and the password
are. -/
theorem version_counterexample :
    rd salt_v1 1 = some 49 ∧ 49 ≠ BCRYPT_VERSION ∧
      (∀ (σ : Type) (T : Tables) (B : Blowfish σ) (fr : Frame σ) (key : List Nat),
        ∃ h, bcrypt T B fr key salt_v1 = .hash h) ∧
      bcrypt bcryptTables toyCipher frame0 key_pw salt_v1 = .hash hash_04 :=
  ⟨by decide, by decide,
    fun _ T B fr key => bcrypt_accepts T B fr key salt_v1
      { minor := 0, logr := 4, rounds := 16, off := 6 } (by rfl),
    by decide⟩

/-- C8, amended: with `v` the version character, read as a `char`, `bcrypt`
returns `"Error 1"` exactly when `v` is greater than `'2'`, and it returns a
hash only when `v` is not greater than `'2'`. -/
theorem version_checked {σ : Type} (T : Tables) (B : Blowfish σ) (fr : Frame σ)
    (key salt : List Nat) (v : Nat) (hv : rd salt 1 = some v) :
    (bcrypt T B fr key salt = .error 1 ↔ schar v > schar BCRYPT_VERSION) ∧
      (∀ h, bcrypt T B fr key salt = .hash h → schar v ≤ schar BCRYPT_VERSION) := by
  constructor
  · constructor
    · intro h
      exact (bcrypt_parse_error_one salt v hv).1 (bcrypt_error_inv T B fr key salt 1 h)
    · intro h
      exact (bcrypt_run_of_parse_error T B fr key salt _
        ((bcrypt_parse_error_one salt v hv).2 h)).1
  · intro h hh
    obtain ⟨hd, csalt, hp, _, _⟩ := bcrypt_hash_inv T B fr key salt h hh
    obtain ⟨v2, m, o, hv2, hle, _⟩ := bcrypt_parse_ok_inv salt hd hp
    rw [hv] at hv2
    injection hv2 with hv2
    rw [hv2]
    exact hle

/-- C8 amended, at `"$3$04$......................"`: version `'3'` is answered
by `"Error 1"`. -/
theorem version_checked_witness :
    bcrypt bcryptTables toyCipher frame0 key_pw salt_v3 = .error 1 :=
  (version_checked bcryptTables toyCipher frame0 key_pw salt_v3 51 (by decide)).1.2 (by decide)

/-! ## The hash string and its verification (C1) -/

/-- Every character `encode_loop` stores is an entry of the alphabet table at
a six-bit index. -/
theorem encode_loop_alphabet (T : Tables) (data : List Nat) (hd : Bytes data) :
    ∀ n p, ∀ c ∈ encode_loop T data n p, ∃ i, i < 64 ∧ c = T.Base64Code i := by
  intro n
  induction n using Nat.strong_induction_on with
  | _ n ih =>
    intro p c hc
    have e1 := sextet1 _ (hd.getD_lt p)
    have e2l := sextet2_last _ (and_lt_succ (data.getD p 0) 3)
    have e2 := sextet2 _ (and_lt_succ (data.getD p 0) 3) _
      (and_lt_succ (data.getD (p + 1) 0 >>> 4) 15)
    have e3l := sextet3_last _ (and_lt_succ (data.getD (p + 1) 0) 15)
    have e3 := sextet3 _ (and_lt_succ (data.getD (p + 1) 0) 15) _
      (and_lt_succ (data.getD (p + 2) 0 >>> 6) 3)
    have e4 := and_lt_succ (data.getD (p + 2) 0) 63
    match n with
    | 0 => simp [encode_loop] at hc
    | 1 =>
      simp only [encode_loop, List.mem_cons, List.mem_singleton, List.not_mem_nil,
        or_false] at hc
      rcases hc with h | h
      · exact ⟨_, e1, h⟩
      · exact ⟨_, e2l, h⟩
    | 2 =>
      simp only [encode_loop, List.mem_cons, List.mem_singleton, List.not_mem_nil,
        or_false] at hc
      rcases hc with h | h | h
      · exact ⟨_, e1, h⟩
      · exact ⟨_, e2, h⟩
      · exact ⟨_, e3l, h⟩
    | k + 3 =>
      simp only [encode_loop, List.mem_cons] at hc
      rcases hc with h | h | h | h | h
      · exact ⟨_, e1, h⟩
      · exact ⟨_, e2, h⟩
      · exact ⟨_, e3, h⟩
      · exact ⟨_, e4, h⟩
      · exact ih k (by omega) (p + 3) c h

theorem encode_loop_length (T : Tables) (data : List Nat) :
    ∀ n p, (encode_loop T data n p).length = n + (n + 2) / 3 := by
  intro n
  induction n using Nat.strong_induction_on with
  | _ n ih =>
    intro p
    match n with
    | 0 => simp [encode_loop]
    | 1 => simp [encode_loop]
    | 2 => simp [encode_loop]
    | k + 3 =>
      simp only [encode_loop, List.length_cons, ih k (by omega) (p + 3)]
      omega

theorem encode_loop_ne_zero (T : Tables) (hN : T.NulFree) (data : List Nat) (hd : Bytes data)
    (n p : Nat) : ∀ c ∈ encode_loop T data n p, c ≠ 0 := by
  intro c hc
  obtain ⟨i, hi, rfl⟩ := encode_loop_alphabet T data hd n p c hc
  exact hN i hi

theorem takeWhile_ne_zero_append (xs rest : List Nat) (h : ∀ c ∈ xs, c ≠ 0) :
    (xs ++ 0 :: rest).takeWhile (fun b => b ≠ 0) = xs := by
  induction xs with
  | nil => simp
  | cons x xs ih =>
    have hx : x ≠ 0 := h x (List.mem_cons_self _ _)
    simp only [List.cons_append, List.takeWhile_cons, hx, ne_eq, not_false_eq_true,
      decide_True, if_true]
    rw [ih (fun c hc => h c (List.mem_cons_of_mem _ hc))]

theorem takeWhile_ne_zero_self (xs : List Nat) (h : ∀ c ∈ xs, c ≠ 0) :
    xs.takeWhile (fun b => b ≠ 0) = xs := by
  rw [List.takeWhile_eq_self_iff]
  intro x hx
  simpa using h x hx

theorem storeAt_append (xs : List Nat) : ∀ (buf : List Nat) (i j : Nat) (ys : List Nat),
    j = i + xs.length → storeAt (storeAt buf i xs) j ys = storeAt buf i (xs ++ ys) := by
  induction xs with
  | nil => intro buf i j ys hj; simp at hj; subst hj; rfl
  | cons x xs ih =>
    intro buf i j ys hj
    simp only [List.length_cons] at hj
    simp only [storeAt, List.cons_append]
    exact ih _ _ _ _ (by omega)

theorem storeAt_overwrite (xs : List Nat) (buf : List Nat) (i j z : Nat) (ys : List Nat)
    (hj : j = i + xs.length) (hys : ys ≠ []) :
    storeAt (storeAt buf i (xs ++ [z])) j ys = storeAt buf i (xs ++ ys) := by
  cases ys with
  | nil => exact absurd rfl hys
  | cons y ys =>
    rw [← storeAt_append xs buf i j [z] hj, ← storeAt_append xs buf i j (y :: ys) hj]
    simp only [storeAt, List.set_set]

theorem cstr_storeAt (buf xs : List Nat) (h : ∀ c ∈ xs, c ≠ 0) (hl : xs.length + 1 ≤ buf.length) :
    cstr (storeAt buf 0 (xs ++ [0])) = xs := by
  rw [storeAt_eq _ _ _ (by simp; omega)]
  simp only [List.take_zero, List.nil_append, List.append_assoc, List.singleton_append, cstr]
  exact takeWhile_ne_zero_append xs _ h

theorem strlen_eq_cstr_length (buf : List Nat) : strlen buf = (cstr buf).length := rfl

theorem write_encrypted_cstr (T : Tables) (hN : T.NulFree) (enc : List Nat) (minor logr : Nat)
    (csalt ct : List Nat) (hm : minor = 0 ∨ minor = 97) (hl : 61 ≤ enc.length)
    (hcs : Bytes csalt) (hct : Bytes ct) :
    cstr (write_encrypted T enc minor logr csalt ct) = hash_string T minor logr csalt ct := by
  have n22 := encode_loop_ne_zero T hN csalt hcs 16 0
  have n31 := encode_loop_ne_zero T hN ct hct 23 0
  have l22 := encode_loop_length T csalt 16 0
  have l31 := encode_loop_length T ct 23 0
  have ne22 : encode_loop T csalt 16 0 ++ [0] ≠ [] := by simp
  have ne31 : encode_loop T ct 23 0 ++ [0] ≠ [] := by simp
  unfold write_encrypted hash_string encode_base64 BCRYPT_MAXSALT BCRYPT_BLOCKS BCRYPT_VERSION
  rcases hm with h | h <;> subst h
  · simp only [ne_eq, not_true_eq_false, if_false]
    have s1 : ((enc.set 0 36).set 1 50).set 2 36 = storeAt enc 0 [36, 50, 36] := rfl
    rw [s1, storeAt_append _ enc 0 (2 + 1) _ (by simp)]
    have s2 : [36, 50, 36] ++ [48 + logr / 10 % 10, 48 + logr % 10, 36, 0]
        = [36, 50, 36, 48 + logr / 10 % 10, 48 + logr % 10, 36] ++ [0] := rfl
    rw [s2, storeAt_overwrite _ enc 0 (2 + 1 + 3) 0 _ (by simp) ne22, ← List.append_assoc]
    have hnz : ∀ c ∈ [36, 50, 36, 48 + logr / 10 % 10, 48 + logr % 10, 36] ++
        encode_loop T csalt 16 0, c ≠ 0 := by
      intro c hc
      rcases List.mem_append.1 hc with h1 | h1
      · simp only [List.mem_cons, List.mem_singleton, List.not_mem_nil, or_false] at h1
        omega
      · exact n22 c h1
    rw [strlen_eq_cstr_length, cstr_storeAt enc _ hnz (by simp [l22]; omega)]
    rw [storeAt_overwrite _ enc 0 _ 0 _ (by simp) ne31, ← List.append_assoc]
    rw [cstr_storeAt enc _ _ (by simp [l22, l31]; omega)]
    · simp
    · intro c hc
      rcases List.mem_append.1 hc with h1 | h1
      · exact hnz c h1
      · exact n31 c h1
  · simp only [ne_eq, Nat.reduceEqDiff, not_false_eq_true, if_true]
    have s1 : (((enc.set 0 36).set 1 50).set 2 97).set 3 36 = storeAt enc 0 [36, 50, 97, 36] :=
      rfl
    rw [s1, storeAt_append _ enc 0 (3 + 1) _ (by simp)]
    have s2 : [36, 50, 97, 36] ++ [48 + logr / 10 % 10, 48 + logr % 10, 36, 0]
        = [36, 50, 97, 36, 48 + logr / 10 % 10, 48 + logr % 10, 36] ++ [0] := rfl
    rw [s2, storeAt_overwrite _ enc 0 (3 + 1 + 3) 0 _ (by simp) ne22, ← List.append_assoc]
    have hnz : ∀ c ∈ [36, 50, 97, 36, 48 + logr / 10 % 10, 48 + logr % 10, 36] ++
        encode_loop T csalt 16 0, c ≠ 0 := by
      intro c hc
      rcases List.mem_append.1 hc with h1 | h1
      · simp only [List.mem_cons, List.mem_singleton, List.not_mem_nil, or_false] at h1
        omega
      · exact n22 c h1
    rw [strlen_eq_cstr_length, cstr_storeAt enc _ hnz (by simp [l22]; omega)]
    rw [storeAt_overwrite _ enc 0 _ 0 _ (by simp) ne31, ← List.append_assoc]
    rw [cstr_storeAt enc _ _ (by simp [l22, l31]; omega)]
    · simp
    · intro c hc
      rcases List.mem_append.1 hc with h1 | h1
      · exact hnz c h1
      · exact n31 c h1

theorem strlen_of_ne_zero (xs : List Nat) (h : ∀ c ∈ xs, c ≠ 0) : strlen xs = xs.length := by
  rw [strlen, takeWhile_ne_zero_self xs h]

/-- A hash string is accepted as a salt-parameter string, with the minor
character and the cost it was written from. -/
theorem bcrypt_parse_hash_string (T : Tables) (hN : T.NulFree) (minor logr : Nat)
    (csalt ct : List Nat) (hm : minor = 0 ∨ minor = 97) (h4 : 4 ≤ logr) (h31 : logr ≤ 31)
    (hcs : Bytes csalt) (hct : Bytes ct) :
    bcrypt_parse (hash_string T minor logr csalt ct) =
      .ok { minor := minor, logr := logr, rounds := (1 <<< logr) % 2 ^ 32,
            off := if minor = 0 then 6 else 7 } ∧
    (hash_string T minor logr csalt ct).drop (if minor = 0 then 6 else 7) =
      encode_loop T csalt 16 0 ++ encode_loop T ct 23 0 := by
  have hv : schar 50 ≤ 50 := by decide
  have hd1 : 48 ≤ 48 + logr / 10 % 10 ∧ 48 + logr / 10 % 10 ≤ 57 := by omega
  have hd2 : 48 ≤ 48 + logr % 10 ∧ 48 + logr % 10 ≤ 57 := by omega
  have hn : 10 * (48 + logr / 10 % 10 - 48) + (48 + logr % 10 - 48) = logr := by omega
  have hnz : ∀ c ∈ encode_loop T csalt 16 0 ++ encode_loop T ct 23 0, c ≠ 0 := by
    intro c hc
    rcases List.mem_append.1 hc with h1 | h1
    · exact encode_loop_ne_zero T hN csalt hcs 16 0 c h1
    · exact encode_loop_ne_zero T hN ct hct 23 0 c h1
  have hs : ¬ strlen (encode_loop T csalt 16 0 ++ encode_loop T ct 23 0) * 3 / 4 <
      BCRYPT_MAXSALT := by
    rw [strlen_of_ne_zero _ hnz, List.length_append, encode_loop_length, encode_loop_length]
    decide
  rcases hm with h | h <;> subst h
  · have e : hash_string T 0 logr csalt ct = [36, 50, 36] ++ (48 + logr / 10 % 10) ::
        (48 + logr % 10) :: 36 :: (encode_loop T csalt 16 0 ++ encode_loop T ct 23 0) := by
      simp [hash_string, BCRYPT_VERSION, BCRYPT_MAXSALT, BCRYPT_BLOCKS]
    constructor
    · rw [e, bcrypt_parse_cost [36, 50, 36] _ 36 50 0 _ _ (Or.inl rfl) hv,
        atoi_two_digits _ _ _ hd1 hd2, hn]
      dsimp only
      rw [Int.toNat_ofNat, Nat.mod_eq_of_lt (show logr < 256 by omega),
        if_neg (by omega), if_neg (rounds_large logr h4 h31), if_neg hs]
      rfl
    · rw [e]; rfl
  · have e : hash_string T 97 logr csalt ct = [36, 50, 97, 36] ++ (48 + logr / 10 % 10) ::
        (48 + logr % 10) :: 36 :: (encode_loop T csalt 16 0 ++ encode_loop T ct 23 0) := by
      simp [hash_string, BCRYPT_VERSION, BCRYPT_MAXSALT, BCRYPT_BLOCKS]
    constructor
    · rw [e, bcrypt_parse_cost [36, 50, 97, 36] _ 36 50 36 _ _ (Or.inr rfl) hv,
        atoi_two_digits _ _ _ hd1 hd2, hn]
      dsimp only
      rw [Int.toNat_ofNat, Nat.mod_eq_of_lt (show logr < 256 by omega),
        if_neg (by omega), if_neg (rounds_large logr h4 h31), if_neg hs]
      rfl
    · rw [e]; rfl

/-- Decoding the salt characters of a hash string gives the salt back,
whatever the buffer held. -/
theorem decode_hash_salt (T : Tables) (hT : T.Inverse) (csalt ct buf : List Nat)
    (hcs : Bytes csalt) (hl : csalt.length = 16) (hb : buf.length = 16) :
    decode_base64 T buf BCRYPT_MAXSALT (encode_loop T csalt 16 0 ++ encode_loop T ct 23 0)
      = some csalt := by
  unfold decode_base64 BCRYPT_MAXSALT
  rw [decode_encode_aux T hT csalt _ (encode_loop T ct 23 0) 16 hcs 16 0 0 buf (by simp)
    (by omega) (by omega)]
  simp only [Nat.sub_self, List.drop_zero]
  rw [List.take_of_length_le (by omega), storeAt_zero_full _ _ (by omega)]

theorem unpack_loop_bytes : ∀ (is : List Nat) (m : List Nat × List Nat),
    Bytes m.1 → Bytes (unpack_loop is m).1 := by
  intro is
  induction is with
  | nil => intro m h; exact h
  | cons i is ih =>
    intro m h
    obtain ⟨ct, cd⟩ := m
    rw [unpack_loop]
    apply ih
    exact (((h.set _ _ (and_lt_succ _ 255)).set _ _ (and_lt_succ _ 255)).set _ _
      (and_lt_succ _ 255)).set _ _ (and_lt_succ _ 255)

theorem bcrypt_crypt_bytes {σ : Type} (B : Blowfish σ) (cdata key : List Nat)
    (minor rounds : Nat) (csalt : List Nat) :
    Bytes (bcrypt_crypt B cdata key minor rounds csalt).1 := by
  unfold bcrypt_crypt
  apply unpack_loop_bytes
  show Bytes ciphertext_init
  unfold Bytes ciphertext_init
  decide

theorem load_loop_frame {σ : Type} (B : Blowfish σ) (ct cd cd2 : List Nat) (j : Nat)
    (log : List Call) (h : cd.length = 6) (h2 : cd2.length = 6) :
    load_loop B ct [0, 1, 2, 3, 4, 5] (cd, j, log) =
      load_loop B ct [0, 1, 2, 3, 4, 5] (cd2, j, log) := by
  match cd, h with
  | [a, b, c, d, e, f], _ =>
    match cd2, h2 with
    | [a2, b2, c2, d2, e2, f2], _ =>
      simp [load_loop, List.set]

/-- The ciphertext does not depend on what `cdata` held, for a `cdata` of six
words. -/
theorem bcrypt_crypt_frame {σ : Type} (B : Blowfish σ) (cd cd2 key : List Nat)
    (minor rounds : Nat) (csalt : List Nat) (h : cd.length = 6) (h2 : cd2.length = 6) :
    bcrypt_crypt B cd key minor rounds csalt = bcrypt_crypt B cd2 key minor rounds csalt := by
  have hr : List.range BCRYPT_BLOCKS = [0, 1, 2, 3, 4, 5] := by decide
  unfold bcrypt_crypt
  simp only [hr]
  rw [load_loop_frame B _ cd cd2 _ _ h h2]

theorem header_facts (salt : List Nat) (hd : Header) (hp : bcrypt_parse salt = .ok hd) :
    (hd.minor = 0 ∨ hd.minor = 97) ∧ 4 ≤ hd.logr ∧ hd.logr ≤ 31 ∧
      hd.rounds = (1 <<< hd.logr) % 2 ^ 32 := by
  obtain ⟨v, m, o, _, _, _, hmo, _, _, h0, h31, hl, hr, hmin, _⟩ :=
    bcrypt_parse_ok_inv salt hd hp
  have h5 : hd.logr = (atoi (salt.drop o)).toNat := by
    rw [hl, Nat.mod_eq_of_lt (by omega)]
  refine ⟨?_, ?_, by omega, hr⟩
  · rcases hmo with ⟨_, _, h⟩ | ⟨_, _, h⟩
    · exact Or.inl h
    · exact Or.inr h
  · by_contra hc
    have := rounds_small hd.logr (by omega)
    rw [← hr] at this
    omega

/-- The hash `bcrypt` returns, as a string of characters, for buffers of the
sizes of their C types. -/
theorem bcrypt_eq_hash_string {σ : Type} (T : Tables) (B : Blowfish σ) (fr : Frame σ)
    (key salt : List Nat) (hd : Header) (csalt : List Nat) (hN : T.NulFree) (hf : fr.WF)
    (hp : bcrypt_parse salt = .ok hd)
    (hc : decode_base64 T fr.csalt BCRYPT_MAXSALT (salt.drop hd.off) = some csalt) :
    bcrypt T B fr key salt = .hash (hash_string T hd.minor hd.logr csalt
      (bcrypt_crypt B fr.cdata key hd.minor hd.rounds csalt).1) ∧
    csalt.length = 16 ∧ Bytes csalt := by
  obtain ⟨hm, _, _, _⟩ := header_facts salt hd hp
  obtain ⟨hl1, hb1, _, hl4⟩ := hf
  obtain ⟨cs2, hc2, hlen, hbytes⟩ := decode_salt_total T salt fr.csalt hd hp
  rw [hc] at hc2
  injection hc2 with hc2
  subst hc2
  refine ⟨?_, by omega, hbytes hb1⟩
  simp only [bcrypt, bcrypt_run, hp, hc]
  rw [write_encrypted_cstr T hN _ _ _ _ _ hm hl4 (hbytes hb1) (bcrypt_crypt_bytes _ _ _ _ _ _)]

/-- C1: when `bcrypt` returns a hash for a password and a salt-parameter
string, `bcrypt` called with the same password and with that hash as the
salt-parameter string returns the same hash, whatever its buffers held:
verification by recomputation succeeds. -/
theorem verify_same_password {σ : Type} (T : Tables) (B : Blowfish σ) (fr fr2 : Frame σ)
    (key salt h : List Nat) (hT : T.Inverse) (hN : T.NulFree) (hf : fr.WF) (hf2 : fr2.WF)
    (hh : bcrypt T B fr key salt = .hash h) :
    bcrypt T B fr2 key h = .hash h := by
  obtain ⟨hd, csalt, hp, hc, _⟩ := bcrypt_hash_inv T B fr key salt h hh
  obtain ⟨hm, h4, h31, hr⟩ := header_facts salt hd hp
  obtain ⟨he, hl, hb⟩ := bcrypt_eq_hash_string T B fr key salt hd csalt hN hf hp hc
  rw [hh] at he
  injection he with he
  have hct := bcrypt_crypt_bytes B fr.cdata key hd.minor hd.rounds csalt
  obtain ⟨hp2, hdrop⟩ := bcrypt_parse_hash_string T hN hd.minor hd.logr csalt _ hm h4 h31 hb hct
  rw [← he] at hp2 hdrop
  have hc2 : decode_base64 T fr2.csalt BCRYPT_MAXSALT
      (h.drop (Header.mk hd.minor hd.logr ((1 <<< hd.logr) % 2 ^ 32)
        (if hd.minor = 0 then 6 else 7)).off) = some csalt := by
    show decode_base64 T fr2.csalt BCRYPT_MAXSALT (h.drop (if hd.minor = 0 then 6 else 7)) = _
    rw [hdrop]
    exact decode_hash_salt T hT csalt _ fr2.csalt hb hl hf2.1
  obtain ⟨he2, _, _⟩ := bcrypt_eq_hash_string T B fr2 key h _ csalt hN hf2 hp2 hc2
  rw [he2, he]
  dsimp only
  rw [← hr, bcrypt_crypt_frame B fr2.cdata fr.cdata key hd.minor hd.rounds csalt hf2.2.2.1
    hf.2.2.1]

theorem frame0_wf : frame0.WF := by
  unfold Frame.WF Bytes frame0
  decide

theorem frame1_wf : frame1.WF := by
  unfold Frame.WF Bytes frame1
  decide

/-- C1 at the password `"pw"` and `"$2a$04$abcdefghijklmnopqrstuu"`: the hash
returned from one set of buffer contents is returned again, from other buffer
contents, when it is passed as the salt-parameter string. -/
theorem verify_same_password_witness :
    bcrypt bcryptTables toyCipher frame1 key_pw hash_2a = .hash hash_2a :=
  verify_same_password bcryptTables toyCipher frame0 frame1 key_pw salt_2a hash_2a
    bcryptTables_inverse bcryptTables_nulFree frame0_wf frame1_wf (by decide)

/-! ## The eight-bit key length (C2, C3) and the unchecked salt characters (C9, C10) -/

/-- The run of `bcrypt` depends on the password only through `key_len` and
the bytes of the password below `key_len`. -/
theorem bcrypt_run_key_window {σ : Type} (T : Tables) (B : Blowfish σ) (fr : Frame σ)
    (k1 k2 salt : List Nat) (h1 : ∀ m, key_len k1 m = key_len k2 m)
    (h2 : ∀ m, key_bytes k1 m = key_bytes k2 m) :
    bcrypt_run T B fr k1 salt = bcrypt_run T B fr k2 salt := by
  unfold bcrypt_run bcrypt_crypt
  simp only [h1, h2]

/-- C2 at a password of 257 bytes: `key257x` is `key257` with its third
character altered.  With the length 257 the key schedule would be handed
different key material for the two, the third of the 72 bytes it mixes in.
But `key_len` is 1 (2 with a minor character), so the two passwords are handed
to the cipher as the same one byte (the same two bytes), and `bcrypt` returns
for `key257x` what it returns for `key257`, whatever the tables, the cipher,
the buffers and the salt-parameter string are; in particular `key257x`
verifies against the hash of `key257`. -/
theorem long_password_collision :
    strlen key257 = 257 ∧ key257x = key257.set 2 98 ∧ key257x ≠ key257 ∧
      key_stream key257 257 2 ≠ key_stream key257x 257 2 ∧
      key_window key257 257 ≠ key_window key257x 257 ∧
      key_window (key257 ++ [0]) 258 ≠ key_window (key257x ++ [0]) 258 ∧
      key_len key257 0 = 1 ∧ key_bytes key257 0 = [97] ∧ key_bytes key257x 0 = [97] ∧
      key_len key257 97 = 2 ∧ key_bytes key257 97 = [97, 97] ∧
      key_bytes key257x 97 = [97, 97] ∧
      (∀ (σ : Type) (T : Tables) (B : Blowfish σ) (fr : Frame σ) (salt : List Nat),
        bcrypt T B fr key257x salt = bcrypt T B fr key257 salt) ∧
      bcrypt bcryptTables toyCipher frame0 key257 salt_04 = .hash hash_257 ∧
      bcrypt bcryptTables toyCipher frame1 key257x hash_257 = .hash hash_257 := by
  have hs : strlen key257 = 257 := by decide
  have hsb : strlen key257x = 257 := by decide
  refine ⟨hs, by decide, by decide, by decide, by decide, by decide, by decide, by decide,
    by decide, by decide, by decide, by decide, ?_, by decide, by decide⟩
  intro σ T B fr salt
  unfold bcrypt
  rw [bcrypt_run_key_window T B fr key257x key257 salt]
  · intro m
    unfold key_len
    rw [hs, hsb]
  · intro m
    unfold key_bytes key_len
    rw [hs, hsb]
    split_ifs <;> decide

/-- C9 at `"$2$04$!....................."`: the salt segment has 22
characters, so the length check passes; its first character is outside the
alphabet, so `decode_base64` leaves the loop at once and writes no byte of
`csalt`; and `bcrypt` returns a hash, not `"Error 6"`, whatever the tables, the
cipher, the buffers and the password are. -/
theorem invalid_salt_accepted :
    strlen (salt_bang.drop 6) = 22 ∧ bcryptTables.CHAR64 33 = 255 ∧
      (∀ buf : List Nat,
        decode_base64 bcryptTables buf BCRYPT_MAXSALT (salt_bang.drop 6) = some buf) ∧
      (∀ (σ : Type) (T : Tables) (B : Blowfish σ) (fr : Frame σ) (key : List Nat),
        ∃ h, bcrypt T B fr key salt_bang = .hash h) ∧
      bcrypt bcryptTables toyCipher frame0 key_pw salt_bang = .hash hash_bang :=
  ⟨by decide, by decide, fun _ => rfl,
    fun _ T B fr key => bcrypt_accepts T B fr key salt_bang
      { minor := 0, logr := 4, rounds := 16, off := 6 } (by rfl),
    by decide⟩

theorem hash_string_no_minor (T : Tables) (logr : Nat) (csalt ct : List Nat) :
    hash_string T 0 logr csalt ct = [36, 50, 36, 48 + logr / 10 % 10, 48 + logr % 10, 36] ++
      (encode_loop T csalt 16 0 ++ encode_loop T ct 23 0) := by
  simp [hash_string, BCRYPT_VERSION, BCRYPT_MAXSALT, BCRYPT_BLOCKS]

/-- C10 at `"$2$04$!....................."`: `decode_base64` writes no byte of
`csalt`, so the salt characters of the returned hash encode what `csalt` held
before the call.  From buffers filled with `0xcc` and from buffers filled with
0 the same password and salt-parameter string give different hashes, and this
for every cipher. -/
theorem uninitialised_salt_output :
    bcrypt bcryptTables toyCipher frame0 key_pw salt_bang = .hash hash_bang ∧
      bcrypt bcryptTables toyCipher frame1 key_pw salt_bang = .hash hash_04 ∧
      hash_bang ≠ hash_04 ∧
      (∀ (σ : Type) (B : Blowfish σ) (fr fr2 : Frame σ) (key : List Nat),
        fr.WF → fr2.WF → fr.csalt = List.replicate 16 204 → fr2.csalt = List.replicate 16 0 →
        bcrypt bcryptTables B fr key salt_bang ≠ bcrypt bcryptTables B fr2 key salt_bang) := by
  refine ⟨by decide, by decide, by decide, ?_⟩
  intro σ B fr fr2 key hf hf2 hc hc2 heq
  have hp : bcrypt_parse salt_bang = .ok { minor := 0, logr := 4, rounds := 16, off := 6 } := by
    rfl
  obtain ⟨e1, _, _⟩ := bcrypt_eq_hash_string bcryptTables B fr key salt_bang _ fr.csalt
    bcryptTables_nulFree hf hp rfl
  obtain ⟨e2, _, _⟩ := bcrypt_eq_hash_string bcryptTables B fr2 key salt_bang _ fr2.csalt
    bcryptTables_nulFree hf2 hp rfl
  rw [e1, e2] at heq
  injection heq with heq
  dsimp only at heq
  rw [hash_string_no_minor, hash_string_no_minor, hc, hc2] at heq
  have h2 := List.append_cancel_left heq
  have h3 := (List.append_inj h2 (by rw [encode_loop_length, encode_loop_length])).1
  revert h3
  decide

/-! ## The log of Blowfish calls -/

theorem rounds_loop_log {σ : Type} (B : Blowfish σ) (key : List Nat) (klen : Nat)
    (csalt : List Nat) (salt_len : Nat) : ∀ (n : Nat) (m : σ × List Call),
    (rounds_loop B key klen csalt salt_len n m).2 = m.2 ++
      (List.replicate n [Call.expand0state Buf.key key klen,
        Call.expand0state Buf.csalt csalt salt_len]).flatten := by
  intro n
  induction n with
  | zero => intro m; simp [rounds_loop]
  | succ n ih =>
    intro m
    rw [rounds_loop, ih]
    simp [List.replicate_succ]

theorem enc_loop_log {σ : Type} (B : Blowfish σ) (st : σ) : ∀ (n : Nat)
    (m : List Nat × List Call),
    (enc_loop B st n m).2 = m.2 ++ List.replicate n (Call.blf_enc (BCRYPT_BLOCKS / 2)) := by
  intro n
  induction n with
  | zero => intro m; simp [enc_loop]
  | succ n ih =>
    intro m
    rw [enc_loop, ih]
    simp [List.replicate_succ]

theorem load_loop_log {σ : Type} (B : Blowfish σ) (ct : List Nat) : ∀ (is : List Nat)
    (m : List Nat × Nat × List Call),
    ∃ js : List Nat, js.length = is.length ∧
      (load_loop B ct is m).2.2 = m.2.2 ++ js.map (Call.stream2word (4 * BCRYPT_BLOCKS)) := by
  intro is
  induction is with
  | nil => intro m; exact ⟨[], rfl, by simp [load_loop]⟩
  | cons i is ih =>
    intro m
    obtain ⟨cd, j, log⟩ := m
    rw [load_loop]
    obtain ⟨js, hl, he⟩ := ih (cd.set i ((B.stream2word (ct.take (4 * BCRYPT_BLOCKS))
      (4 * BCRYPT_BLOCKS) j).1 % 2 ^ 32), (B.stream2word (ct.take (4 * BCRYPT_BLOCKS))
      (4 * BCRYPT_BLOCKS) j).2 % 2 ^ 16, log ++ [Call.stream2word (4 * BCRYPT_BLOCKS) j])
    exact ⟨j :: js, by simp [hl], by rw [he]; simp⟩

/-- The Blowfish calls of the key schedule and the encryption, in order:
`Blowfish_initstate`; `Blowfish_expandstate` with the salt and the password;
`rounds` times `Blowfish_expand0state` with the password and then with the
salt; six `Blowfish_stream2word`; 64 `blf_enc`. -/
theorem bcrypt_crypt_calls {σ : Type} (B : Blowfish σ) (cdata key : List Nat)
    (minor rounds : Nat) (csalt : List Nat) :
    ∃ js : List Nat, js.length = 6 ∧
      (bcrypt_crypt B cdata key minor rounds csalt).2 =
        [Call.initstate,
         Call.expandstate (csalt.take BCRYPT_MAXSALT) BCRYPT_MAXSALT (key_bytes key minor)
           (key_len key minor)] ++
        (List.replicate rounds
          [Call.expand0state Buf.key (key_bytes key minor) (key_len key minor),
           Call.expand0state Buf.csalt (csalt.take BCRYPT_MAXSALT) BCRYPT_MAXSALT]).flatten ++
        js.map (Call.stream2word (4 * BCRYPT_BLOCKS)) ++
        List.replicate 64 (Call.blf_enc (BCRYPT_BLOCKS / 2)) := by
  unfold bcrypt_crypt
  dsimp only
  rw [enc_loop_log]
  obtain ⟨js, hl, he⟩ := load_loop_log B ciphertext_init (List.range BCRYPT_BLOCKS)
    (cdata, 0, (rounds_loop B (key_bytes key minor) (key_len key minor)
      (csalt.take BCRYPT_MAXSALT) BCRYPT_MAXSALT rounds
      (B.expandstate B.initstate (csalt.take BCRYPT_MAXSALT) BCRYPT_MAXSALT
        (key_bytes key minor) (key_len key minor),
        [Call.initstate] ++ [Call.expandstate (csalt.take BCRYPT_MAXSALT) BCRYPT_MAXSALT
          (key_bytes key minor) (key_len key minor)])).2)
  refine ⟨js, by rw [hl]; rfl, ?_⟩
  dsimp only
  rw [he]
  dsimp only
  rw [rounds_loop_log]
  simp

/-- Every password key length that `bcrypt` hands to `Blowfish_expandstate` and
`Blowfish_expand0state` is `key_len`, the eight-bit value. -/
theorem calls_key_len {σ : Type} (T : Tables) (B : Blowfish σ) (fr : Frame σ)
    (key salt : List Nat) (c : Call) (hc : c ∈ (bcrypt_run T B fr key salt).calls) :
    ∃ minor, (minor = 0 ∨ minor = 97) ∧
      (∀ d n k kl, c = Call.expandstate d n k kl → kl = key_len key minor) ∧
      (∀ k kl, c = Call.expand0state Buf.key k kl → kl = key_len key minor) := by
  unfold bcrypt_run at hc
  split at hc
  · simp at hc
  · rename_i hd hp
    obtain ⟨hm, _, _, _⟩ := header_facts salt hd hp
    split at hc
    · simp at hc
    · rename_i csalt hcs
      dsimp only at hc
      obtain ⟨js, _, he⟩ := bcrypt_crypt_calls B fr.cdata key hd.minor hd.rounds csalt
      rw [he] at hc
      simp only [List.mem_append, List.mem_cons, List.mem_singleton, List.not_mem_nil,
        or_false, List.mem_flatten, List.mem_replicate, List.mem_map] at hc
      refine ⟨hd.minor, hm, ?_, ?_⟩
      · intro d n k kl hk
        rcases hc with (((h | h) | ⟨l, ⟨_, rfl⟩, h⟩) | ⟨j, _, h⟩) | ⟨_, h⟩
        · rw [h] at hk; exact Call.noConfusion hk
        · rw [h] at hk
          simp only [Call.expandstate.injEq] at hk
          exact hk.2.2.2.symm
        · simp only [List.mem_cons, List.mem_singleton, List.not_mem_nil, or_false] at h
          rcases h with h | h <;> rw [h] at hk <;> exact Call.noConfusion hk
        · rw [← h] at hk; exact Call.noConfusion hk
        · rw [h] at hk; exact Call.noConfusion hk
      · intro k kl hk
        rcases hc with (((h | h) | ⟨l, ⟨_, rfl⟩, h⟩) | ⟨j, _, h⟩) | ⟨_, h⟩
        · rw [h] at hk; exact Call.noConfusion hk
        · rw [h] at hk; exact Call.noConfusion hk
        · simp only [List.mem_cons, List.mem_singleton, List.not_mem_nil, or_false] at h
          rcases h with h | h
          · rw [h] at hk
            simp only [Call.expand0state.injEq] at hk
            exact hk.2.2.symm
          · rw [h] at hk
            simp only [Call.expand0state.injEq, reduceCtorEq, false_and] at hk
        · rw [← h] at hk; exact Call.noConfusion hk
        · rw [h] at hk; exact Call.noConfusion hk

/-- C3 at a password of 256 bytes: with no minor character the key length
handed to `Blowfish_expandstate` and to `Blowfish_expand0state` for the
password is 0, not 256, and whatever the tables, the cipher, the buffers and
the salt-parameter string are it is at most 1.  Likewise at a password of 255
bytes with the minor character `'a'`: the key length is 0, not 256. -/
theorem key_len_wraps :
    strlen key256 = 256 ∧ key_len key256 0 = 0 ∧
      (bcrypt_run bcryptTables toyCipher frame0 key256 salt_04).calls.take 3 =
        [Call.initstate, Call.expandstate (List.replicate 16 0) 16 [] 0,
         Call.expand0state Buf.key [] 0] ∧
      (∀ (σ : Type) (T : Tables) (B : Blowfish σ) (fr : Frame σ) (salt : List Nat) (c : Call),
        c ∈ (bcrypt_run T B fr key256 salt).calls →
          (∀ d n k kl, c = Call.expandstate d n k kl → kl ≤ 1) ∧
          (∀ k kl, c = Call.expand0state Buf.key k kl → kl ≤ 1)) ∧
      strlen key255 = 255 ∧ key_len key255 97 = 0 ∧
      ((bcrypt_run bcryptTables toyCipher frame0 key255 salt_2a).calls.take 3).tail =
        [Call.expandstate [113, 215, 159, 130, 24, 163, 146, 89, 167, 162, 154, 171, 178, 219,
           175, 195] 16 [] 0, Call.expand0state Buf.key [] 0] := by
  refine ⟨by decide, by decide, by decide, ?_, by decide, by decide, by decide⟩
  intro σ T B fr salt c hc
  have k0 : key_len key256 0 = 0 := by decide
  have k1 : key_len key256 97 = 1 := by decide
  obtain ⟨minor, hm, h1, h2⟩ := calls_key_len T B fr key256 salt c hc
  constructor
  · intro d n k kl hk
    have := h1 d n k kl hk
    rcases hm with h | h <;> subst h <;> omega
  · intro k kl hk
    have := h2 k kl hk
    rcases hm with h | h <;> subst h <;> omega

/-! ## The error string as a salt-parameter string (C19) -/

/-- C19: for every password, `bcrypt` called with the string `"Error 1"` as the
salt-parameter string returns the string `"Error 1"`. -/
theorem error_one_fixed_point {σ : Type} (T : Tables) (B : Blowfish σ) (fr : Frame σ)
    (key : List Nat) :
    bcrypt T B fr key error_1 = .error 1 ∧ (bcrypt T B fr key error_1).str = some error_1 := by
  have h := (bcrypt_run_of_parse_error T B fr key error_1 (.error 1) (by rfl)).1
  constructor
  · exact h
  · unfold bcrypt
    rw [h]
    rfl

/-! ## The buffers at return (C18) -/

theorem bcrypt_run_error_buffers {σ : Type} (T : Tables) (B : Blowfish σ) (fr : Frame σ)
    (key salt : List Nat) (n : Nat) (h : bcrypt T B fr key salt = .error n) :
    (bcrypt_run T B fr key salt).ciphertext = ciphertext_init ∧
      (bcrypt_run T B fr key salt).state = fr.state ∧
      (bcrypt_run T B fr key salt).csalt = fr.csalt ∧
      (bcrypt_run T B fr key salt).cdata = fr.cdata := by
  have hp := bcrypt_error_inv T B fr key salt n h
  simp [bcrypt_run, hp]

theorem bcrypt_run_hash_buffers {σ : Type} (T : Tables) (B : Blowfish σ) (fr : Frame σ)
    (key salt h : List Nat) (hh : bcrypt T B fr key salt = .hash h) :
    (bcrypt_run T B fr key salt).ciphertext = List.replicate 25 0 ∧
      (bcrypt_run T B fr key salt).state = B.zero ∧
      (bcrypt_run T B fr key salt).csalt = List.replicate 16 0 ∧
      (bcrypt_run T B fr key salt).cdata = List.replicate 6 0 := by
  obtain ⟨hd, csalt, hp, hc, _⟩ := bcrypt_hash_inv T B fr key salt h hh
  simp only [bcrypt_run, hp, hc]
  simp [BCRYPT_BLOCKS, BCRYPT_MAXSALT]

/-- C18 at `"$3$04$......................"`: `bcrypt` returns `"Error 1"` from line
69, in front of the `memset` calls of lines 153 to 156, and `ciphertext` still
holds `"OrpheanBeholderScryDoubt"`.  So it is on every error return, whatever
the tables, the cipher, the buffers and the inputs are: `ciphertext` holds its
initialiser and `state`, `csalt` and `cdata` hold what they held before the
call; only on the return of a hash are the four buffers zero. -/
theorem zeroing_skipped_on_error :
    (bcrypt_run bcryptTables toyCipher frame0 key_pw salt_v3).ret = .error 1 ∧
      (bcrypt_run bcryptTables toyCipher frame0 key_pw salt_v3).ciphertext = ciphertext_init ∧
      ciphertext_init ≠ List.replicate 25 0 ∧
      (bcrypt_run bcryptTables toyCipher frame0 key_pw salt_v3).csalt = List.replicate 16 204 ∧
      (∀ (σ : Type) (T : Tables) (B : Blowfish σ) (fr : Frame σ) (key salt : List Nat) (n : Nat),
        bcrypt T B fr key salt = .error n →
          (bcrypt_run T B fr key salt).ciphertext = ciphertext_init ∧
          (bcrypt_run T B fr key salt).state = fr.state ∧
          (bcrypt_run T B fr key salt).csalt = fr.csalt ∧
          (bcrypt_run T B fr key salt).cdata = fr.cdata) ∧
      (∀ (σ : Type) (T : Tables) (B : Blowfish σ) (fr : Frame σ) (key salt h : List Nat),
        bcrypt T B fr key salt = .hash h →
          (bcrypt_run T B fr key salt).ciphertext = List.replicate 25 0 ∧
          (bcrypt_run T B fr key salt).state = B.zero ∧
          (bcrypt_run T B fr key salt).csalt = List.replicate 16 0 ∧
          (bcrypt_run T B fr key salt).cdata = List.replicate 6 0) :=
  ⟨by decide, by decide, by decide, by decide,
    fun _ T B fr key salt n h => bcrypt_run_error_buffers T B fr key salt n h,
    fun _ T B fr key salt h hh => bcrypt_run_hash_buffers T B fr key salt h hh⟩

/-! ## The shape of what `encode_base64` writes (C16) -/

/-- C16: for a sequence of `n` bytes, `n` below 65536, `encode_base64` stores
`4 * (n / 3)` characters for the full groups and 0, 2 or 3 more when `n % 3`
is 0, 1 or 2, each of them an entry of the alphabet table at an index below
64, and then one NUL. -/
theorem encode_base64_shape (T : Tables) (data : List Nat) (n : Nat) (hd : Bytes data)
    (_ : n ≤ data.length) (_ : n < 65536) :
    ∃ cs, encode_base64 T data n = cs ++ [0] ∧
      cs.length = 4 * (n / 3) + (if n % 3 = 0 then 0 else n % 3 + 1) ∧
      ∀ c ∈ cs, ∃ i, i < 64 ∧ c = T.Base64Code i := by
  refine ⟨encode_loop T data n 0, rfl, ?_, encode_loop_alphabet T data hd n 0⟩
  rw [encode_loop_length]
  split_ifs <;> omega

/-- C16 at the 16 bytes 0..15: 22 characters and a NUL. -/
theorem encode_base64_shape_witness :
    ∃ cs, encode_base64 bcryptTables (List.range 16) 16 = cs ++ [0] ∧
      cs.length = 4 * (16 / 3) + (if 16 % 3 = 0 then 0 else 16 % 3 + 1) ∧
      ∀ c ∈ cs, ∃ i, i < 64 ∧ c = bcryptTables.Base64Code i :=
  encode_base64_shape bcryptTables (List.range 16) 16 (by unfold Bytes; decide) (by decide)
    (by decide)

/-! ## The key schedule (C14) -/

theorem rounds_loop_state {σ : Type} (B : Blowfish σ) (key : List Nat) (klen : Nat)
    (csalt : List Nat) (salt_len : Nat) : ∀ (n : Nat) (m : σ × List Call),
    (rounds_loop B key klen csalt salt_len n m).1 =
      (fun st => B.expand0state (B.expand0state st key klen) csalt salt_len)^[n] m.1 := by
  intro n
  induction n with
  | zero => intro m; rfl
  | succ n ih =>
    intro m
    rw [rounds_loop, ih, Function.iterate_succ]
    rfl

theorem enc_loop_data {σ : Type} (B : Blowfish σ) (st : σ) : ∀ (n : Nat)
    (m : List Nat × List Call),
    (enc_loop B st n m).1 =
      (fun c => (B.blf_enc st c (BCRYPT_BLOCKS / 2)).map (fun w => w % 2 ^ 32))^[n] m.1 := by
  intro n
  induction n with
  | zero => intro m; rfl
  | succ n ih =>
    intro m
    rw [enc_loop, ih, Function.iterate_succ]
    rfl

theorem rounds_eq_pow (c : Nat) (h : c ≤ 31) : (1 <<< c) % 2 ^ 32 = 2 ^ c := by
  rw [Nat.shiftLeft_eq, Nat.one_mul]
  exact Nat.mod_eq_of_lt (Nat.pow_lt_pow_right (by omega) (by omega))

/-- The ciphertext is the unpacking of 64 `blf_enc` passes under the state the
key schedule ends with. -/
theorem bcrypt_crypt_state {σ : Type} (B : Blowfish σ) (cdata key : List Nat)
    (minor rounds : Nat) (csalt : List Nat) :
    ∃ cd : List Nat,
      (bcrypt_crypt B cdata key minor rounds csalt).1 =
        (unpack_loop (List.range BCRYPT_BLOCKS) (ciphertext_init,
          (fun c => (B.blf_enc
            ((fun st => B.expand0state (B.expand0state st (key_bytes key minor)
                (key_len key minor)) (csalt.take BCRYPT_MAXSALT) BCRYPT_MAXSALT)^[rounds]
              (B.expandstate B.initstate (csalt.take BCRYPT_MAXSALT) BCRYPT_MAXSALT
                (key_bytes key minor) (key_len key minor)))
            c (BCRYPT_BLOCKS / 2)).map (fun w => w % 2 ^ 32))^[64] cd)).1 := by
  unfold bcrypt_crypt
  dsimp only
  rw [enc_loop_data, rounds_loop_state]
  exact ⟨_, rfl⟩

/-- C14: for an accepted input with cost `c`, the Blowfish calls of `bcrypt`
are, in order: `Blowfish_initstate`; one `Blowfish_expandstate` with the 16
bytes of `csalt` as data and the password as key; `2 ^ c` times
`Blowfish_expand0state` with the password and then `Blowfish_expand0state`
with the salt; the six `Blowfish_stream2word`; 64 `blf_enc`.  The state of the
64 `blf_enc` passes is the state the `2 ^ c` iterations end with, and the
returned hash is written from the ciphertext of these passes. -/
theorem key_schedule_sequence {σ : Type} (T : Tables) (B : Blowfish σ) (fr : Frame σ)
    (key salt h : List Nat) (hh : bcrypt T B fr key salt = .hash h) :
    ∃ (hd : Header) (csalt js cd : List Nat),
      bcrypt_parse salt = .ok hd ∧
      decode_base64 T fr.csalt BCRYPT_MAXSALT (salt.drop hd.off) = some csalt ∧
      4 ≤ hd.logr ∧ hd.logr ≤ 31 ∧ js.length = 6 ∧
      (bcrypt_run T B fr key salt).calls =
        [Call.initstate,
         Call.expandstate (csalt.take 16) 16 (key_bytes key hd.minor) (key_len key hd.minor)] ++
        (List.replicate (2 ^ hd.logr)
          [Call.expand0state Buf.key (key_bytes key hd.minor) (key_len key hd.minor),
           Call.expand0state Buf.csalt (csalt.take 16) 16]).flatten ++
        js.map (Call.stream2word 24) ++ List.replicate 64 (Call.blf_enc 3) ∧
      h = cstr (write_encrypted T fr.encrypted hd.minor hd.logr csalt
        (unpack_loop (List.range 6) (ciphertext_init,
          (fun c => (B.blf_enc
            ((fun st => B.expand0state (B.expand0state st (key_bytes key hd.minor)
                (key_len key hd.minor)) (csalt.take 16) 16)^[2 ^ hd.logr]
              (B.expandstate B.initstate (csalt.take 16) 16
                (key_bytes key hd.minor) (key_len key hd.minor)))
            c 3).map (fun w => w % 2 ^ 32))^[64] cd)).1) := by
  obtain ⟨hd, csalt, hp, hc, he⟩ := bcrypt_hash_inv T B fr key salt h hh
  obtain ⟨_, h4, h31, hr⟩ := header_facts salt hd hp
  obtain ⟨js, hjs, hcalls⟩ := bcrypt_crypt_calls B fr.cdata key hd.minor hd.rounds csalt
  obtain ⟨cd, hcd⟩ := bcrypt_crypt_state B fr.cdata key hd.minor hd.rounds csalt
  rw [hr, rounds_eq_pow hd.logr h31] at hcalls hcd
  refine ⟨hd, csalt, js, cd, hp, hc, h4, h31, hjs, ?_, ?_⟩
  · simp only [bcrypt_run, hp, hc]
    rw [hr, rounds_eq_pow hd.logr h31]
    exact hcalls
  · rw [he, hr, rounds_eq_pow hd.logr h31, hcd]
    rfl

/-- C14 at the password `"pw"` and `"$2$04$......................"`. -/
theorem key_schedule_sequence_witness :
    ∃ (hd : Header) (csalt js : List Nat),
      bcrypt_parse salt_04 = .ok hd ∧
      decode_base64 bcryptTables frame0.csalt BCRYPT_MAXSALT (salt_04.drop hd.off) = some csalt ∧
      4 ≤ hd.logr ∧ hd.logr ≤ 31 ∧ js.length = 6 ∧
      (bcrypt_run bcryptTables toyCipher frame0 key_pw salt_04).calls =
        [Call.initstate,
         Call.expandstate (csalt.take 16) 16 (key_bytes key_pw hd.minor)
           (key_len key_pw hd.minor)] ++
        (List.replicate (2 ^ hd.logr)
          [Call.expand0state Buf.key (key_bytes key_pw hd.minor) (key_len key_pw hd.minor),
           Call.expand0state Buf.csalt (csalt.take 16) 16]).flatten ++
        js.map (Call.stream2word 24) ++ List.replicate 64 (Call.blf_enc 3) :=
  let ⟨hd, csalt, js, _, hp, hc, h4, h31, hjs, hcalls, _⟩ :=
    key_schedule_sequence bcryptTables toyCipher frame0 key_pw salt_04 hash_04 (by decide)
  ⟨hd, csalt, js, hp, hc, h4, h31, hjs, hcalls⟩

/-! ## The format of the hash string (C12, C13) -/

theorem hash_string_minor (T : Tables) (logr : Nat) (csalt ct : List Nat) :
    hash_string T 97 logr csalt ct =
      [36, 50, 97, 36, 48 + logr / 10 % 10, 48 + logr % 10, 36] ++
        (encode_loop T csalt 16 0 ++ encode_loop T ct 23 0) := by
  simp [hash_string, BCRYPT_VERSION, BCRYPT_MAXSALT, BCRYPT_BLOCKS]

theorem header_minor_iff (salt : List Nat) (hd : Header) (hp : bcrypt_parse salt = .ok hd) :
    (hd.minor = 97 ↔ rd salt 2 = some 97) ∧ (hd.minor = 0 ↔ rd salt 2 = some 36) ∧
      atoi (salt.drop (cost_offset salt)) = (hd.logr : Int) := by
  obtain ⟨v, m, o, _, _, hm, hmo, _, _, h0, h31, hl, _⟩ := bcrypt_parse_ok_inv salt hd hp
  have hlog : ((hd.logr : Nat) : Int) = atoi (salt.drop o) := by
    rw [hl, Nat.mod_eq_of_lt (show (atoi (salt.drop o)).toNat < 256 by omega)]
    omega
  rcases hmo with ⟨h1, h2, h3⟩ | ⟨h1, h2, h3⟩
  · subst h1 h2
    refine ⟨by rw [h3, hm]; simp, by rw [h3, hm]; simp, ?_⟩
    rw [cost_offset, hm, if_neg (by simp), hlog]
  · subst h1 h2
    refine ⟨by rw [h3, hm]; simp, by rw [h3, hm]; simp, ?_⟩
    rw [cost_offset, hm, if_pos rfl, hlog]

/-- The characters `encode_loop` stores depend only on the bytes it is to
read, those below `p + n`. -/
theorem encode_loop_take (T : Tables) (data : List Nat) :
    ∀ n p, encode_loop T data n p = encode_loop T (data.take (p + n)) n p := by
  have hg : ∀ (m i : Nat), i < m → (data.take m).getD i 0 = data.getD i 0 := by
    intro m i hi
    simp only [List.getD_eq_getElem?_getD, List.getElem?_take, if_pos hi]
  intro n
  induction n using Nat.strong_induction_on with
  | _ n ih =>
    intro p
    match n with
    | 0 => rfl
    | 1 => simp only [encode_loop, hg (p + 1) p (by omega)]
    | 2 => simp only [encode_loop, hg (p + 2) p (by omega), hg (p + 2) (p + 1) (by omega)]
    | k + 3 =>
      simp only [encode_loop, hg (p + (k + 3)) p (by omega),
        hg (p + (k + 3)) (p + 1) (by omega), hg (p + (k + 3)) (p + 2) (by omega)]
      rw [ih k (by omega) (p + 3), show p + 3 + k = p + (k + 3) by omega]

theorem unpack_loop_length : ∀ (is : List Nat) (m : List Nat × List Nat),
    (unpack_loop is m).1.length = m.1.length := by
  intro is
  induction is with
  | nil => intro m; rfl
  | cons i is ih =>
    intro m
    obtain ⟨ct, cd⟩ := m
    rw [unpack_loop, ih]
    simp

/-- The buffer `ciphertext` keeps its 25 bytes. -/
theorem bcrypt_crypt_length {σ : Type} (B : Blowfish σ) (cdata key : List Nat)
    (minor rounds : Nat) (csalt : List Nat) :
    (bcrypt_crypt B cdata key minor rounds csalt).1.length = 25 := by
  unfold bcrypt_crypt
  dsimp only
  rw [unpack_loop_length]
  rfl

/-- C12: a returned hash is `'$'`, `'2'`, the minor character `'a'` exactly when
the input carried it, `'$'`, the two decimal digits of the parsed cost, `'$'`,
the 22 characters that encode the 16 bytes `decode_base64` left in `csalt`
and the 31 characters that encode the first 23 bytes of `ciphertext` as the
encryption passes left it; each of the 53 characters is an entry of the
alphabet table at an index below 64; the length is 60 with the minor
character and 59 without.  No entry of the bcrypt alphabet is `'='`. -/
theorem hash_format {σ : Type} (T : Tables) (B : Blowfish σ) (fr : Frame σ)
    (key salt h : List Nat) (hN : T.NulFree) (hf : fr.WF)
    (hh : bcrypt T B fr key salt = .hash h) :
    ∃ (hd : Header) (csalt ct : List Nat),
      bcrypt_parse salt = .ok hd ∧
      decode_base64 T fr.csalt BCRYPT_MAXSALT (salt.drop hd.off) = some csalt ∧
      csalt.length = 16 ∧
      ct = (bcrypt_crypt B fr.cdata key hd.minor hd.rounds csalt).1 ∧ ct.length = 25 ∧
      (hd.minor = 97 ∧ rd salt 2 = some 97 ∨ hd.minor = 0 ∧ rd salt 2 = some 36) ∧
      hd.logr ≤ 31 ∧
      h = [36, 50] ++ (if hd.minor = 97 then [97] else []) ++
        [36, 48 + hd.logr / 10, 48 + hd.logr % 10, 36] ++
        encode_loop T csalt 16 0 ++ encode_loop T (ct.take 23) 23 0 ∧
      isdigit (48 + hd.logr / 10) = true ∧ isdigit (48 + hd.logr % 10) = true ∧
      (encode_loop T csalt 16 0).length = 22 ∧ (encode_loop T (ct.take 23) 23 0).length = 31 ∧
      (∀ c ∈ encode_loop T csalt 16 0 ++ encode_loop T (ct.take 23) 23 0,
        ∃ i, i < 64 ∧ c = T.Base64Code i) ∧
      h.length = (if hd.minor = 97 then 60 else 59) ∧
      (∀ i, i < 64 → bcryptTables.Base64Code i ≠ 61) := by
  obtain ⟨hd, csalt, hp, hc, _⟩ := bcrypt_hash_inv T B fr key salt h hh
  obtain ⟨hm, h4, h31, _⟩ := header_facts salt hd hp
  obtain ⟨hm1, hm2, _⟩ := header_minor_iff salt hd hp
  obtain ⟨he, hl, hb⟩ := bcrypt_eq_hash_string T B fr key salt hd csalt hN hf hp hc
  rw [hh] at he
  injection he with he
  have hct := bcrypt_crypt_bytes B fr.cdata key hd.minor hd.rounds csalt
  have htk := encode_loop_take T (bcrypt_crypt B fr.cdata key hd.minor hd.rounds csalt).1 23 0
  rw [Nat.zero_add] at htk
  have l22 := encode_loop_length T csalt 16 0
  have l31 := encode_loop_length T (bcrypt_crypt B fr.cdata key hd.minor hd.rounds csalt).1 23 0
  rw [htk] at l31
  have halpha : ∀ c ∈ encode_loop T csalt 16 0 ++
      encode_loop T ((bcrypt_crypt B fr.cdata key hd.minor hd.rounds csalt).1.take 23) 23 0,
      ∃ i, i < 64 ∧ c = T.Base64Code i := by
    intro c hc
    rw [← htk] at hc
    rcases List.mem_append.1 hc with h1 | h1
    · exact encode_loop_alphabet T csalt hb 16 0 c h1
    · exact encode_loop_alphabet T _ hct 23 0 c h1
  have h61 : ∀ i, i < 64 → bcryptTables.Base64Code i ≠ 61 := by
    intro i hi
    simp only [bcryptTables]
    split_ifs <;> omega
  have e10 : hd.logr / 10 % 10 = hd.logr / 10 := Nat.mod_eq_of_lt (by omega)
  have hd1 : isdigit (48 + hd.logr / 10) = true := by simp [isdigit]; omega
  have hd2 : isdigit (48 + hd.logr % 10) = true := by simp [isdigit]; omega
  refine ⟨hd, csalt, _, hp, hc, hl, rfl, bcrypt_crypt_length B _ _ _ _ _, ?_, h31, ?_, hd1, hd2,
    l22, l31, halpha, ?_, h61⟩
  · rcases hm with h0 | h97
    · exact Or.inr ⟨h0, hm2.1 h0⟩
    · exact Or.inl ⟨h97, hm1.1 h97⟩
  · rw [← htk, he]
    rcases hm with h0 | h97
    · rw [h0, hash_string_no_minor, e10]
      simp
    · rw [h97, hash_string_minor, e10]
      simp
  · rw [he]
    rcases hm with h0 | h97
    · rw [h0, hash_string_no_minor]
      simp [encode_loop_length]
    · rw [h97, hash_string_minor]
      simp [encode_loop_length]

/-- C12 at the password `"pw"` and `"$2a$04$abcdefghijklmnopqrstuu"`: the hash
has 60 characters, the minor character and the cost field `"04"`. -/
theorem hash_format_witness :
    hash_2a.length = 60 ∧ hash_2a.take 7 = [36, 50, 97, 36, 48, 52, 36] :=
  let ⟨hd, csalt, ct, hp, _, _, _, _, _, _, hh, _, _, _, _, _, hlen, _⟩ :=
    hash_format bcryptTables toyCipher frame0 key_pw salt_2a hash_2a bcryptTables_nulFree
      frame0_wf (by decide)
  have hp2 : bcrypt_parse salt_2a = .ok { minor := 97, logr := 4, rounds := 16, off := 7 } := by
    rfl
  have hhd : hd = { minor := 97, logr := 4, rounds := 16, off := 7 } := by
    rw [hp2] at hp
    injection hp with hp
    exact hp.symm
  ⟨by rw [hlen, hhd]; rfl, by rw [hh, hhd]; rfl⟩

theorem decimal2_hash_string (T : Tables) (minor logr : Nat) (csalt ct : List Nat)
    (hm : minor = 0 ∨ minor = 97) (h31 : logr ≤ 31) :
    decimal2 (hash_string T minor logr csalt ct)
      (cost_offset (hash_string T minor logr csalt ct)) = some logr := by
  have hd1 : isdigit (48 + logr / 10 % 10) = true := by simp [isdigit]; omega
  have hd2 : isdigit (48 + logr % 10) = true := by simp [isdigit]; omega
  rcases hm with h | h <;> subst h
  · rw [hash_string_no_minor]
    simp only [cost_offset, decimal2, rd, List.cons_append, List.length_cons]
    simp [hd1, hd2]
    omega
  · rw [hash_string_minor]
    simp only [cost_offset, decimal2, rd, List.cons_append, List.length_cons]
    simp [hd1, hd2]
    omega

/-- C13: when `bcrypt` returns a hash, with `c` the cost it parsed from the
input (the number `atoi` reads at the cost field): the two-character cost
field of the hash, read as a decimal number, is `c`; the loop of the key
schedule makes `2 ^ c` rounds, as the log of the Blowfish calls shows, and
the hash is written from the ciphertext computed with `2 ^ c` rounds; and a
hash returned for an input with another parsed cost is another string. -/
theorem cost_field_roundtrip {σ : Type} (T : Tables) (B : Blowfish σ) (fr : Frame σ)
    (key salt h : List Nat) (hN : T.NulFree) (hf : fr.WF)
    (hh : bcrypt T B fr key salt = .hash h) :
    ∃ (hd : Header) (csalt js : List Nat), bcrypt_parse salt = .ok hd ∧
      decode_base64 T fr.csalt BCRYPT_MAXSALT (salt.drop hd.off) = some csalt ∧
      atoi (salt.drop (cost_offset salt)) = (hd.logr : Int) ∧
      decimal2 h (cost_offset h) = some hd.logr ∧
      hd.rounds = 2 ^ hd.logr ∧ js.length = 6 ∧
      (bcrypt_run T B fr key salt).calls =
        [Call.initstate,
         Call.expandstate (csalt.take 16) 16 (key_bytes key hd.minor) (key_len key hd.minor)] ++
        (List.replicate (2 ^ hd.logr)
          [Call.expand0state Buf.key (key_bytes key hd.minor) (key_len key hd.minor),
           Call.expand0state Buf.csalt (csalt.take 16) 16]).flatten ++
        js.map (Call.stream2word 24) ++ List.replicate 64 (Call.blf_enc 3) ∧
      h = hash_string T hd.minor hd.logr csalt
        (bcrypt_crypt B fr.cdata key hd.minor (2 ^ hd.logr) csalt).1 ∧
      (∀ (fr2 : Frame σ) (key2 salt2 h2 : List Nat) (hd2 : Header), fr2.WF →
        bcrypt T B fr2 key2 salt2 = .hash h2 → bcrypt_parse salt2 = .ok hd2 →
        hd2.logr ≠ hd.logr → h2 ≠ h) := by
  obtain ⟨hd, csalt, hp, hc, _⟩ := bcrypt_hash_inv T B fr key salt h hh
  obtain ⟨hm, _, h31, hr⟩ := header_facts salt hd hp
  obtain ⟨_, _, hatoi⟩ := header_minor_iff salt hd hp
  obtain ⟨he, _, _⟩ := bcrypt_eq_hash_string T B fr key salt hd csalt hN hf hp hc
  rw [hh] at he
  injection he with he
  have hdec : decimal2 h (cost_offset h) = some hd.logr := by
    rw [he]
    exact decimal2_hash_string T _ _ _ _ hm h31
  have hpow : hd.rounds = 2 ^ hd.logr := by rw [hr, rounds_eq_pow _ h31]
  obtain ⟨js, hjs, hcalls⟩ := bcrypt_crypt_calls B fr.cdata key hd.minor hd.rounds csalt
  rw [hpow] at hcalls
  refine ⟨hd, csalt, js, hp, hc, hatoi, hdec, hpow, hjs, ?_, by rw [he, hpow], ?_⟩
  · simp only [bcrypt_run, hp, hc]
    rw [hpow]
    exact hcalls
  intro fr2 key2 salt2 h2 hd2 hf2 hh2 hp2 hne heq
  obtain ⟨hd3, csalt2, hp3, hc2, _⟩ := bcrypt_hash_inv T B fr2 key2 salt2 h2 hh2
  rw [hp2] at hp3
  injection hp3 with hp3
  subst hp3
  obtain ⟨hm2, _, h312, _⟩ := header_facts salt2 hd2 hp2
  obtain ⟨he2, _, _⟩ := bcrypt_eq_hash_string T B fr2 key2 salt2 hd2 csalt2 hN hf2 hp2 hc2
  rw [hh2] at he2
  injection he2 with he2
  have hdec2 : decimal2 h2 (cost_offset h2) = some hd2.logr := by
    rw [he2]
    exact decimal2_hash_string T _ _ _ _ hm2 h312
  rw [heq, hdec] at hdec2
  injection hdec2 with hdec2
  exact hne hdec2.symm

/-- C13 at the password `"pw"` and `"$2$5x$......................"`: the cost
field of the hash reads 5, and the key schedule makes 32 rounds, 64 calls of
`Blowfish_expand0state`. -/
theorem cost_field_roundtrip_witness :
    decimal2 hash_5x (cost_offset hash_5x) = some 5 ∧
      ((bcrypt_run bcryptTables toyCipher frame0 key_pw salt_5x).calls.filter
        (fun c => match c with
          | Call.expand0state _ _ _ => true
          | _ => false)).length = 2 * 2 ^ 5 :=
  let ⟨hd, _, _, hp, _, _, hdec, _, _, _, _, _⟩ :=
    cost_field_roundtrip bcryptTables toyCipher frame0 key_pw salt_5x hash_5x
      bcryptTables_nulFree frame0_wf (by decide)
  have h5 : hd.logr = 5 := by
    have hp5 : bcrypt_parse salt_5x = .ok { minor := 0, logr := 5, rounds := 32, off := 6 } := by
      rfl
    rw [hp5] at hp
    injection hp with hp
    rw [← hp]
  ⟨by rw [hdec, h5], by decide⟩

/-! ## The key material under the minor character (C17) -/

/-- Under the minor character `'a'` a password of at most 254 bytes is handed
over as its bytes and the NUL, with its length plus one. -/
theorem key_material_minor (p : List Nat) (hc : ∀ b ∈ p, b ≠ 0) (hl : p.length ≤ 254) :
    key_len p 97 = p.length + 1 ∧ key_bytes p 97 = p ++ [0] := by
  have k1 : key_len p 97 = p.length + 1 := by
    rw [key_len, strlen_of_ne_zero p hc, if_pos (by omega)]
    exact Nat.mod_eq_of_lt (by omega)
  refine ⟨k1, ?_⟩
  rw [key_bytes, k1, List.take_of_length_le (by simp)]

theorem key_window_getD (key : List Nat) (keybytes i : Nat) (hi : i < 72) :
    (key_window key keybytes).getD i 0 = key_stream key keybytes i := by
  unfold key_window
  rw [List.getD_eq_getElem?_getD, List.getElem?_map, List.getElem?_range hi]
  rfl

/-- The key material of `p` and of `p` twice over differ in the byte at index
`|p|` of the key stream: the NUL against the first byte of `p`. -/
theorem key_stream_doubled (p : List Nat) (hne : p ≠ []) (hc : ∀ b ∈ p, b ≠ 0) :
    key_stream (p ++ [0]) (p.length + 1) p.length = 0 ∧
      key_stream (p ++ p ++ [0]) (2 * p.length + 1) p.length ≠ 0 := by
  rw [key_stream, key_stream, Nat.mod_eq_of_lt (by omega), Nat.mod_eq_of_lt (by omega)]
  obtain ⟨a, tl, rfl⟩ := List.exists_cons_of_ne_nil hne
  have ha : a ≠ 0 := hc a (List.mem_cons_self _ _)
  rw [List.getD_append_right _ _ _ _ (Nat.le_refl _), List.append_assoc,
    List.getD_append_right _ _ _ _ (Nat.le_refl _)]
  simp only [Nat.sub_self, List.cons_append, List.getD_cons_zero]
  exact ⟨trivial, ha⟩

/-- From 72 bytes on, the key material of `p` and of `p` twice over agree on
the 72 bytes the key schedule mixes in. -/
theorem key_window_doubled (p : List Nat) (hl : 72 ≤ p.length) :
    key_window (p ++ [0]) (p.length + 1) = key_window (p ++ p ++ [0]) (2 * p.length + 1) := by
  unfold key_window
  apply List.map_congr_left
  intro i hi
  have h72 : i < 72 := List.mem_range.1 hi
  rw [key_stream, key_stream, Nat.mod_eq_of_lt (by omega), Nat.mod_eq_of_lt (by omega),
    List.append_assoc, List.getD_append _ _ _ _ (by omega),
    List.getD_append _ _ _ _ (by omega)]

/-- The Blowfish calls of an accepted run, in order. -/
theorem bcrypt_run_calls {σ : Type} (T : Tables) (B : Blowfish σ) (fr : Frame σ)
    (key salt : List Nat) (hd : Header) (csalt : List Nat) (hp : bcrypt_parse salt = .ok hd)
    (hc : decode_base64 T fr.csalt BCRYPT_MAXSALT (salt.drop hd.off) = some csalt) :
    ∃ js : List Nat, js.length = 6 ∧
      (bcrypt_run T B fr key salt).calls =
        [Call.initstate,
         Call.expandstate (csalt.take 16) 16 (key_bytes key hd.minor) (key_len key hd.minor)] ++
        (List.replicate (2 ^ hd.logr)
          [Call.expand0state Buf.key (key_bytes key hd.minor) (key_len key hd.minor),
           Call.expand0state Buf.csalt (csalt.take 16) 16]).flatten ++
        js.map (Call.stream2word 24) ++ List.replicate 64 (Call.blf_enc 3) := by
  obtain ⟨_, _, h31, hr⟩ := header_facts salt hd hp
  obtain ⟨js, hjs, hcalls⟩ := bcrypt_crypt_calls B fr.cdata key hd.minor hd.rounds csalt
  rw [hr, rounds_eq_pow hd.logr h31] at hcalls
  refine ⟨js, hjs, ?_⟩
  simp only [bcrypt_run, hp, hc]
  rw [hr, rounds_eq_pow hd.logr h31]
  exact hcalls

/-- C17, amended: under the minor character `'a'`, for a non-empty password `p`
of at most 71 bytes, `bcrypt` hands to `Blowfish_expandstate` and to every
`Blowfish_expand0state` for the password the bytes of `p` and the NUL with
length `|p| + 1`, and for `p` twice over the bytes of `p`, of `p` again and the
NUL with length `2 |p| + 1`.  The two cyclic key byte streams differ at index
`|p|`, the NUL against the first byte of `p`, which is among the 72 bytes the
key schedule mixes in. -/
theorem minor_flag_streams {σ : Type} (T : Tables) (B : Blowfish σ) (fr : Frame σ)
    (p salt : List Nat) (hd : Header) (hp : bcrypt_parse salt = .ok hd) (hm : hd.minor = 97)
    (hne : p ≠ []) (hc : ∀ b ∈ p, b ≠ 0) (hl : p.length ≤ 71) :
    ∃ csalt js js2 : List Nat,
      decode_base64 T fr.csalt BCRYPT_MAXSALT (salt.drop hd.off) = some csalt ∧
      js.length = 6 ∧ js2.length = 6 ∧
      (bcrypt_run T B fr p salt).calls =
        [Call.initstate, Call.expandstate (csalt.take 16) 16 (p ++ [0]) (p.length + 1)] ++
        (List.replicate (2 ^ hd.logr)
          [Call.expand0state Buf.key (p ++ [0]) (p.length + 1),
           Call.expand0state Buf.csalt (csalt.take 16) 16]).flatten ++
        js.map (Call.stream2word 24) ++ List.replicate 64 (Call.blf_enc 3) ∧
      (bcrypt_run T B fr (p ++ p) salt).calls =
        [Call.initstate,
         Call.expandstate (csalt.take 16) 16 (p ++ p ++ [0]) (2 * p.length + 1)] ++
        (List.replicate (2 ^ hd.logr)
          [Call.expand0state Buf.key (p ++ p ++ [0]) (2 * p.length + 1),
           Call.expand0state Buf.csalt (csalt.take 16) 16]).flatten ++
        js2.map (Call.stream2word 24) ++ List.replicate 64 (Call.blf_enc 3) ∧
      p.length < 72 ∧
      key_stream (p ++ [0]) (p.length + 1) p.length = 0 ∧
      key_stream (p ++ p ++ [0]) (2 * p.length + 1) p.length ≠ 0 ∧
      key_window (p ++ [0]) (p.length + 1) ≠ key_window (p ++ p ++ [0]) (2 * p.length + 1) := by
  have hcc : ∀ b ∈ p ++ p, b ≠ 0 := by
    intro b hb
    rcases List.mem_append.1 hb with h | h <;> exact hc b h
  obtain ⟨k1, b1⟩ := key_material_minor p hc (by omega)
  obtain ⟨k2, b2⟩ := key_material_minor (p ++ p) hcc (by rw [List.length_append]; omega)
  have e2 : (p ++ p).length + 1 = 2 * p.length + 1 := by rw [List.length_append]; omega
  rw [e2] at k2
  obtain ⟨csalt, hcs, _⟩ := decode_salt_total T salt fr.csalt hd hp
  obtain ⟨js, hjs, hcalls⟩ := bcrypt_run_calls T B fr p salt hd csalt hp hcs
  obtain ⟨js2, hjs2, hcalls2⟩ := bcrypt_run_calls T B fr (p ++ p) salt hd csalt hp hcs
  rw [hm, k1, b1] at hcalls
  rw [hm, k2, b2] at hcalls2
  obtain ⟨s1, s2⟩ := key_stream_doubled p hne hc
  refine ⟨csalt, js, js2, hcs, hjs, hjs2, hcalls, hcalls2, by omega, s1, s2, ?_⟩
  intro hw
  have h1 := key_window_getD (p ++ [0]) (p.length + 1) p.length (by omega)
  have h2 := key_window_getD (p ++ p ++ [0]) (2 * p.length + 1) p.length (by omega)
  rw [hw, h2, s1] at h1
  exact s2 h1

/-- The amended C17 at `"ab"` against `"abab"` with
`"$2a$04$abcdefghijklmnopqrstuu"`: the key material is `'a'`, `'b'`, NUL against
`'a'`, `'b'`, `'a'`, `'b'`, NUL, and the key streams differ at index 2. -/
theorem minor_flag_streams_witness :
    (bcrypt_run bcryptTables toyCipher frame0 key_ab salt_2a).calls.take 2 =
        [Call.initstate, Call.expandstate [113, 215, 159, 130, 24, 163, 146, 89, 167, 162, 154,
          171, 178, 219, 175, 195] 16 [97, 98, 0] 3] ∧
      (bcrypt_run bcryptTables toyCipher frame0 key_abab salt_2a).calls.take 2 =
        [Call.initstate, Call.expandstate [113, 215, 159, 130, 24, 163, 146, 89, 167, 162, 154,
          171, 178, 219, 175, 195] 16 [97, 98, 97, 98, 0] 5] ∧
      key_stream [97, 98, 0] 3 2 = 0 ∧ key_stream [97, 98, 97, 98, 0] 5 2 ≠ 0 ∧
      key_window [97, 98, 0] 3 ≠ key_window [97, 98, 97, 98, 0] 5 :=
  let ⟨_, _, _, _, _, _, _, _, _, s1, s2, hw⟩ :=
    minor_flag_streams bcryptTables toyCipher frame0 key_ab salt_2a
      { minor := 97, logr := 4, rounds := 16, off := 7 } (by rfl) rfl (by decide) (by decide)
      (by decide)
  ⟨by decide, by decide, s1, s2, hw⟩

/-- C17 fails at the 72 bytes 1 to 72 (and from 72 bytes on): the key
material `bcrypt` hands over is as the claim says, the bytes and the NUL with
lengths 73 and 145, and the two cyclic key byte streams differ at index 72;
but the 72 bytes of the streams that the key schedule mixes in are the same
for the password and for the password twice over. -/
theorem minor_flag_window_counterexample :
    key72.length = 72 ∧ (∀ b ∈ key72, b ≠ 0) ∧
      key_len key72 97 = 73 ∧ key_bytes key72 97 = key72 ++ [0] ∧
      key_len (key72 ++ key72) 97 = 145 ∧
      key_bytes (key72 ++ key72) 97 = key72 ++ key72 ++ [0] ∧
      ((bcrypt_run bcryptTables toyCipher frame0 key72 salt_2a).calls.take 2).tail =
        [Call.expandstate [113, 215, 159, 130, 24, 163, 146, 89, 167, 162, 154, 171, 178, 219,
          175, 195] 16 (key72 ++ [0]) 73] ∧
      ((bcrypt_run bcryptTables toyCipher frame0 (key72 ++ key72) salt_2a).calls.take 2).tail =
        [Call.expandstate [113, 215, 159, 130, 24, 163, 146, 89, 167, 162, 154, 171, 178, 219,
          175, 195] 16 (key72 ++ key72 ++ [0]) 145] ∧
      key_stream (key_bytes key72 97) (key_len key72 97) 72 ≠
        key_stream (key_bytes (key72 ++ key72) 97) (key_len (key72 ++ key72) 97) 72 ∧
      key_window (key_bytes key72 97) (key_len key72 97) =
        key_window (key_bytes (key72 ++ key72) 97) (key_len (key72 ++ key72) 97) ∧
      (∀ p : List Nat, 72 ≤ p.length → p.length ≤ 127 → (∀ b ∈ p, b ≠ 0) →
        key_window (key_bytes p 97) (key_len p 97) =
          key_window (key_bytes (p ++ p) 97) (key_len (p ++ p) 97)) := by
  refine ⟨by decide, by decide, by decide, by decide, by decide, by decide, by decide,
    by decide, by decide, by decide, ?_⟩
  intro p h72 h127 hc
  have hcc : ∀ b ∈ p ++ p, b ≠ 0 := by
    intro b hb
    rcases List.mem_append.1 hb with h | h <;> exact hc b h
  obtain ⟨k1, b1⟩ := key_material_minor p hc (by omega)
  obtain ⟨k2, b2⟩ := key_material_minor (p ++ p) hcc (by rw [List.length_append]; omega)
  have e2 : (p ++ p).length + 1 = 2 * p.length + 1 := by rw [List.length_append]; omega
  rw [k1, b1, k2, b2, e2]
  exact key_window_doubled p h72

/-! ## The positions `decode_base64` reads (C20) -/

theorem decode_loop_log_fst (T : Tables) (data : List Nat) (len : Nat) :
    ∀ n p buf log, (decode_loop_log T data len n p buf log).1 = decode_loop T data len n p buf := by
  intro n
  induction n using Nat.strong_induction_on with
  | _ n ih =>
    intro p buf log
    match n with
    | 0 => rfl
    | 1 =>
      rw [decode_loop_log, decode_loop]
      generalize rd data p = r1
      generalize rd data (p + 1) = r2
      rcases r1 with _ | x1 <;> rcases r2 with _ | x2 <;>
        first | rfl | (dsimp only; (repeat' split) <;> rfl)
    | 2 =>
      rw [decode_loop_log, decode_loop]
      generalize rd data p = r1
      generalize rd data (p + 1) = r2
      generalize rd data (p + 2) = r3
      rcases r1 with _ | x1 <;> rcases r2 with _ | x2 <;> rcases r3 with _ | x3 <;>
        dsimp only <;> (repeat' split) <;> rfl
    | k + 3 =>
      rw [decode_loop_log, decode_loop]
      generalize rd data p = r1
      generalize rd data (p + 1) = r2
      generalize rd data (p + 2) = r3
      generalize rd data (p + 3) = r4
      rcases r1 with _ | x1 <;> rcases r2 with _ | x2 <;> rcases r3 with _ | x3 <;>
        rcases r4 with _ | x4 <;> dsimp only <;> (repeat' split) <;>
        first | rfl | exact ih k (by omega) _ _ _

/-- Every position `decode_loop_log` adds to the log lies between `p` and
`p + n + (n - 1) / 3`. -/
theorem decode_loop_log_bound (T : Tables) (data : List Nat) (len : Nat) :
    ∀ n p buf log, ∀ i ∈ (decode_loop_log T data len n p buf log).2,
      i ∈ log ∨ (p ≤ i ∧ i ≤ p + n + (n - 1) / 3 ∧ 0 < n) := by
  intro n
  induction n using Nat.strong_induction_on with
  | _ n ih =>
    intro p buf log i
    match n with
    | 0 => exact fun hi => Or.inl hi
    | 1 =>
      rw [decode_loop_log]
      generalize rd data p = r1
      generalize rd data (p + 1) = r2
      rcases r1 with _ | x1 <;> rcases r2 with _ | x2 <;> dsimp only <;>
        (repeat' split) <;> intro hi <;>
        simp only [List.mem_append, List.mem_cons, List.mem_singleton, List.not_mem_nil,
          or_false, or_assoc] at hi <;> rcases hi with h | h <;>
        first | exact Or.inl h | exact Or.inr (by omega)
    | 2 =>
      rw [decode_loop_log]
      generalize rd data p = r1
      generalize rd data (p + 1) = r2
      generalize rd data (p + 2) = r3
      rcases r1 with _ | x1 <;> rcases r2 with _ | x2 <;> rcases r3 with _ | x3 <;>
        dsimp only <;> (repeat' split) <;> intro hi <;>
        simp only [List.mem_append, List.mem_cons, List.mem_singleton, List.not_mem_nil,
          or_false, or_assoc] at hi <;> rcases hi with h | h <;>
        first | exact Or.inl h | exact Or.inr (by omega)
    | k + 3 =>
      rw [decode_loop_log]
      generalize rd data p = r1
      generalize rd data (p + 1) = r2
      generalize rd data (p + 2) = r3
      generalize rd data (p + 3) = r4
      rcases r1 with _ | x1 <;> rcases r2 with _ | x2 <;> rcases r3 with _ | x3 <;>
        rcases r4 with _ | x4 <;> dsimp only <;> (repeat' split) <;> intro hi <;>
        first
        | (simp only [List.mem_append, List.mem_cons, List.mem_singleton, List.not_mem_nil,
            or_false, or_assoc] at hi
           rcases hi with h | h
           · exact Or.inl h
           · exact Or.inr (by omega))
        | (rcases ih k (by omega) _ _ _ i hi with h | h
           · simp only [List.mem_append, List.mem_cons, List.mem_singleton,
               List.not_mem_nil, or_false, or_assoc] at h
             rcases h with h | h
             · exact Or.inl h
             · exact Or.inr (by omega)
           · exact Or.inr (by omega))

/-- C20: for a salt-parameter string that has passed the length check of
line 104, the call `decode_base64(csalt, 16, salt)` reads only positions 0 to 21
of the salt segment, and the segment has at least 22 characters in front of
its NUL: every position read lies strictly before the terminator. -/
theorem decode_salt_reads (T : Tables) (salt buf : List Nat) (hd : Header)
    (hp : bcrypt_parse salt = .ok hd) :
    (decode_loop_log T (salt.drop hd.off) BCRYPT_MAXSALT BCRYPT_MAXSALT 0 buf []).1 =
        decode_base64 T buf BCRYPT_MAXSALT (salt.drop hd.off) ∧
      22 ≤ strlen (salt.drop hd.off) ∧
      ∀ i ∈ (decode_loop_log T (salt.drop hd.off) BCRYPT_MAXSALT BCRYPT_MAXSALT 0 buf []).2,
        i ≤ 21 ∧ i < strlen (salt.drop hd.off) := by
  obtain ⟨v, m, o, _, _, _, _, _, _, _, _, _, _, _, hs⟩ := bcrypt_parse_ok_inv salt hd hp
  unfold BCRYPT_MAXSALT at hs ⊢
  have h22 : 22 ≤ strlen (salt.drop hd.off) := by omega
  refine ⟨decode_loop_log_fst T _ 16 16 0 buf [], h22, ?_⟩
  intro i hi
  rcases decode_loop_log_bound T _ 16 16 0 buf [] i hi with h | h
  · simp at h
  · omega

/-- C20 at `"$2$04$......................"`. -/
theorem decode_salt_reads_witness :
    22 ≤ strlen (salt_04.drop 6) ∧
      ∀ i ∈ (decode_loop_log bcryptTables (salt_04.drop 6) BCRYPT_MAXSALT BCRYPT_MAXSALT 0
          frame0.csalt []).2,
        i ≤ 21 ∧ i < strlen (salt_04.drop 6) :=
  (decode_salt_reads bcryptTables salt_04 frame0.csalt
    { minor := 0, logr := 4, rounds := 16, off := 6 } (by rfl)).2

/-! ## What `decode_base64` writes (C15, C11) -/

theorem rd_drop (s : List Nat) (p i : Nat) (hp : p ≤ s.length) :
    rd s (p + i) = rd (s.drop p) i := by
  unfold rd
  rw [List.length_drop]
  by_cases h : p + i ≤ s.length
  · rw [if_pos h, if_pos (by omega)]
    simp [List.getD_eq_getElem?_getD, List.getElem?_drop]
  · rw [if_neg h, if_neg (by omega)]

/-- `decode_loop` sees its text only through the reads from `p` on. -/
theorem decode_loop_congr (T : Tables) (s t : List Nat) (len : Nat) :
    ∀ n p q buf, (∀ i, rd s (p + i) = rd t (q + i)) →
      decode_loop T s len n p buf = decode_loop T t len n q buf := by
  intro n
  induction n using Nat.strong_induction_on with
  | _ n ih =>
    intro p q buf h
    have h0 := h 0
    have h1 := h 1
    have h2 := h 2
    have h3 := h 3
    simp only [Nat.add_zero] at h0
    match n with
    | 0 => rfl
    | 1 => rw [decode_loop, decode_loop, h0, h1]
    | 2 => rw [decode_loop, decode_loop, h0, h1, h2]
    | k + 3 =>
      rw [decode_loop, decode_loop, h0, h1, h2, h3]
      have hr : ∀ buf2, decode_loop T s len k (p + 4) buf2 = decode_loop T t len k (q + 4) buf2 :=
        fun buf2 => ih k (by omega) (p + 4) (q + 4) buf2 (fun i => by
          have := h (4 + i)
          rw [← Nat.add_assoc, ← Nat.add_assoc] at this
          exact this)
      simp only [hr]

theorem alphabet_lead_cons_valid (T : Tables) (a : Nat) (l : List Nat) (h : ¬ T.CHAR64 a = 255) :
    alphabet_lead T (a :: l) = a :: alphabet_lead T l := by
  simp [alphabet_lead, List.takeWhile_cons, h]

theorem alphabet_lead_cons_invalid (T : Tables) (a : Nat) (l : List Nat) (h : T.CHAR64 a = 255) :
    alphabet_lead T (a :: l) = [] := by
  simp [alphabet_lead, List.takeWhile_cons, h]

theorem alphabet_lead_nil (T : Tables) : alphabet_lead T [] = [] := rfl

theorem decode_bytes_take_one (T : Tables) (a b : Nat) (l : List Nat) :
    (decode_bytes T (a :: b :: l)).take 1 =
      [((T.CHAR64 a <<< 2) ||| ((T.CHAR64 b &&& 0x30) >>> 4)) % 256] := by
  rcases l with _ | ⟨c, _ | ⟨d, tl⟩⟩ <;> simp [decode_bytes]

theorem decode_bytes_take_two (T : Tables) (a b c : Nat) (l : List Nat) :
    (decode_bytes T (a :: b :: c :: l)).take 2 =
      [((T.CHAR64 a <<< 2) ||| ((T.CHAR64 b &&& 0x30) >>> 4)) % 256,
       (((T.CHAR64 b &&& 0x0f) <<< 4) ||| ((T.CHAR64 c &&& 0x3c) >>> 2)) % 256] := by
  rcases l with _ | ⟨d, tl⟩ <;> simp [decode_bytes]

/-- What `decode_loop` returns when no read passes the terminator: the buffer
with the bytes of the leading alphabet characters stored from `bp` on, as many
of them as there is room for. -/
theorem decode_loop_lead (T : Tables) (h0 : T.CHAR64 0 = 255) (len : Nat) :
    ∀ n l buf out, n ≤ len → decode_loop T l len n 0 buf = some out →
      out = storeAt buf (len - n) ((decode_bytes T (alphabet_lead T l)).take n) := by
  intro n
  induction n using Nat.strong_induction_on with
  | _ n ih =>
    intro l buf out hn h
    match n with
    | 0 =>
      simp only [decode_loop, Option.some.injEq] at h
      subst h
      simp [storeAt]
    | 1 =>
      rcases l with _ | ⟨a, _ | ⟨b, tl⟩⟩
      · simp [decode_loop, rd] at h
      · simp [decode_loop, rd, h0] at h
        subst h
        by_cases va : T.CHAR64 a = 255
        · simp [alphabet_lead_cons_invalid T a _ va, decode_bytes, storeAt]
        · simp [alphabet_lead_cons_valid T a _ va, alphabet_lead_nil, decode_bytes, storeAt]
      · simp only [decode_loop, rd, List.length_cons, Nat.zero_le, if_true, Nat.zero_add,
          Nat.le_add_left, List.getD_cons_zero, List.getD_cons_succ] at h
        by_cases va : T.CHAR64 a = 255
        · simp [va] at h
          subst h
          simp [alphabet_lead_cons_invalid T a _ va, decode_bytes, storeAt]
        · by_cases vb : T.CHAR64 b = 255
          · simp [va, vb] at h
            subst h
            simp [alphabet_lead_cons_valid T a _ va, alphabet_lead_cons_invalid T b _ vb,
              decode_bytes, storeAt]
          · simp [va, vb] at h
            subst h
            rw [alphabet_lead_cons_valid T a _ va, alphabet_lead_cons_valid T b _ vb,
              decode_bytes_take_one]
            simp [storeAt]
    | 2 =>
      have e1 : len - 2 + 1 = len - 1 := by omega
      rcases l with _ | ⟨a, _ | ⟨b, _ | ⟨c, tl⟩⟩⟩
      · simp [decode_loop, rd] at h
      · simp [decode_loop, rd, h0] at h
        subst h
        by_cases va : T.CHAR64 a = 255
        · simp [alphabet_lead_cons_invalid T a _ va, decode_bytes, storeAt]
        · simp [alphabet_lead_cons_valid T a _ va, alphabet_lead_nil, decode_bytes, storeAt]
      · simp only [decode_loop, rd, List.length_cons, List.length_nil, Nat.zero_le, if_true,
          Nat.zero_add, Nat.le_add_left, List.getD_cons_zero, List.getD_cons_succ] at h
        by_cases va : T.CHAR64 a = 255
        · simp [va] at h
          subst h
          simp [alphabet_lead_cons_invalid T a _ va, decode_bytes, storeAt]
        · by_cases vb : T.CHAR64 b = 255
          · simp [va, vb] at h
            subst h
            simp [alphabet_lead_cons_valid T a _ va, alphabet_lead_cons_invalid T b _ vb,
              decode_bytes, storeAt]
          · simp [va, vb, h0] at h
            subst h
            rw [alphabet_lead_cons_valid T a _ va, alphabet_lead_cons_valid T b _ vb,
              alphabet_lead_nil]
            simp [decode_bytes, storeAt]
      · simp only [decode_loop, rd, List.length_cons, Nat.zero_le, if_true, Nat.zero_add,
          Nat.le_add_left, List.getD_cons_zero, List.getD_cons_succ] at h
        by_cases va : T.CHAR64 a = 255
        · simp [va] at h
          subst h
          simp [alphabet_lead_cons_invalid T a _ va, decode_bytes, storeAt]
        · by_cases vb : T.CHAR64 b = 255
          · simp [va, vb] at h
            subst h
            simp [alphabet_lead_cons_valid T a _ va, alphabet_lead_cons_invalid T b _ vb,
              decode_bytes, storeAt]
          · by_cases vc : T.CHAR64 c = 255
            · simp [va, vb, vc] at h
              subst h
              rw [alphabet_lead_cons_valid T a _ va, alphabet_lead_cons_valid T b _ vb,
                alphabet_lead_cons_invalid T c _ vc]
              simp [decode_bytes, storeAt]
            · simp [va, vb, vc] at h
              subst h
              rw [alphabet_lead_cons_valid T a _ va, alphabet_lead_cons_valid T b _ vb,
                alphabet_lead_cons_valid T c _ vc, decode_bytes_take_two]
              simp [storeAt, e1]
    | k + 3 =>
      have e1 : len - (k + 3) + 1 = len - (k + 2) := by omega
      have e2b : len - (k + 2) + 1 = len - (k + 1) := by omega
      have e3b : len - (k + 1) + 1 = len - k := by omega
      rcases l with _ | ⟨a, _ | ⟨b, _ | ⟨c, _ | ⟨d, tl⟩⟩⟩⟩
      · simp [decode_loop, rd] at h
      · simp [decode_loop, rd, h0] at h
        subst h
        by_cases va : T.CHAR64 a = 255
        · simp [alphabet_lead_cons_invalid T a _ va, decode_bytes, storeAt]
        · simp [alphabet_lead_cons_valid T a _ va, alphabet_lead_nil, decode_bytes, storeAt]
      · simp only [decode_loop, rd, List.length_cons, List.length_nil, Nat.zero_le, if_true,
          Nat.zero_add, Nat.le_add_left, List.getD_cons_zero, List.getD_cons_succ] at h
        by_cases va : T.CHAR64 a = 255
        · simp [va] at h
          subst h
          simp [alphabet_lead_cons_invalid T a _ va, decode_bytes, storeAt]
        · by_cases vb : T.CHAR64 b = 255
          · simp [va, vb] at h
            subst h
            simp [alphabet_lead_cons_valid T a _ va, alphabet_lead_cons_invalid T b _ vb,
              decode_bytes, storeAt]
          · simp [va, vb, h0] at h
            subst h
            rw [alphabet_lead_cons_valid T a _ va, alphabet_lead_cons_valid T b _ vb,
              alphabet_lead_nil]
            simp [decode_bytes, storeAt]
      · simp only [decode_loop, rd, List.length_cons, List.length_nil, Nat.zero_le, if_true,
          Nat.zero_add, Nat.le_add_left, List.getD_cons_zero, List.getD_cons_succ] at h
        by_cases va : T.CHAR64 a = 255
        · simp [va] at h
          subst h
          simp [alphabet_lead_cons_invalid T a _ va, decode_bytes, storeAt]
        · by_cases vb : T.CHAR64 b = 255
          · simp [va, vb] at h
            subst h
            simp [alphabet_lead_cons_valid T a _ va, alphabet_lead_cons_invalid T b _ vb,
              decode_bytes, storeAt]
          · by_cases vc : T.CHAR64 c = 255
            · simp [va, vb, vc] at h
              subst h
              rw [alphabet_lead_cons_valid T a _ va, alphabet_lead_cons_valid T b _ vb,
                alphabet_lead_cons_invalid T c _ vc]
              simp [decode_bytes, storeAt]
            · simp [va, vb, vc, h0] at h
              subst h
              rw [alphabet_lead_cons_valid T a _ va, alphabet_lead_cons_valid T b _ vb,
                alphabet_lead_cons_valid T c _ vc, alphabet_lead_nil]
              simp [decode_bytes, storeAt, e1]
      · by_cases va : T.CHAR64 a = 255
        · simp [decode_loop, rd, va] at h
          subst h
          simp [alphabet_lead_cons_invalid T a _ va, decode_bytes, storeAt]
        · by_cases vb : T.CHAR64 b = 255
          · simp [decode_loop, rd, va, vb] at h
            subst h
            simp [alphabet_lead_cons_valid T a _ va, alphabet_lead_cons_invalid T b _ vb,
              decode_bytes, storeAt]
          · by_cases vc : T.CHAR64 c = 255
            · simp [decode_loop, rd, va, vb, vc] at h
              subst h
              rw [alphabet_lead_cons_valid T a _ va, alphabet_lead_cons_valid T b _ vb,
                alphabet_lead_cons_invalid T c _ vc]
              simp [decode_bytes, storeAt]
            · by_cases vd : T.CHAR64 d = 255
              · simp [decode_loop, rd, va, vb, vc, vd] at h
                subst h
                rw [alphabet_lead_cons_valid T a _ va, alphabet_lead_cons_valid T b _ vb,
                  alphabet_lead_cons_valid T c _ vc, alphabet_lead_cons_invalid T d _ vd]
                simp [decode_bytes, storeAt, e1]
              · rw [decode_loop] at h
                simp only [rd, List.length_cons, Nat.zero_le, if_true, Nat.zero_add,
                  Nat.le_add_left, List.getD_cons_zero, List.getD_cons_succ, va, vb, vc, vd,
                  or_self, if_false] at h
                rw [decode_loop_congr T _ tl len k 4 0 _ (fun i => by
                  rw [rd_drop _ 4 i (by simp), Nat.zero_add]; rfl)] at h
                have := ih k (by omega) tl _ out (by omega) h
                rw [this, alphabet_lead_cons_valid T a _ va, alphabet_lead_cons_valid T b _ vb,
                  alphabet_lead_cons_valid T c _ vc, alphabet_lead_cons_valid T d _ vd]
                simp only [decode_bytes, List.take_succ_cons, storeAt]
                rw [e1, e2b, e3b]

theorem decode_bytes_length (T : Tables) :
    ∀ cs : List Nat, (decode_bytes T cs).length = 3 * cs.length / 4
  | [] => by simp [decode_bytes]
  | [_] => by simp [decode_bytes]
  | [_, _] => by simp [decode_bytes]
  | [_, _, _] => by simp [decode_bytes]
  | _ :: _ :: _ :: _ :: rest => by
    simp only [decode_bytes, List.length_cons, decode_bytes_length T rest]
    omega

/-- What `decode_base64` writes when NUL is not in the alphabet and it reads no
position past the terminator of the text (as is the case when the text has at
least `maxBytes + (maxBytes - 1) / 3` characters): it stores the first
`maxBytes` of the bytes of the leading alphabet characters of the text, that
is `min maxBytes (3 * k / 4)` bytes for `k` such characters, from the start of
the buffer, and leaves the rest of the buffer as it was. -/
theorem decode_base64_writes (T : Tables) (text buf : List Nat) (maxBytes : Nat)
    (h0 : T.CHAR64 0 = 255) (hb : maxBytes ≤ buf.length) :
    (maxBytes = 0 ∨ maxBytes + (maxBytes - 1) / 3 ≤ text.length →
      ∃ out, decode_base64 T buf maxBytes text = some out) ∧
    (∀ out, decode_base64 T buf maxBytes text = some out →
      out = (decode_bytes T (alphabet_lead T text)).take maxBytes ++
        buf.drop (min maxBytes (3 * (alphabet_lead T text).length / 4)) ∧
      ((decode_bytes T (alphabet_lead T text)).take maxBytes).length =
        min maxBytes (3 * (alphabet_lead T text).length / 4)) := by
  have hlen : ((decode_bytes T (alphabet_lead T text)).take maxBytes).length =
      min maxBytes (3 * (alphabet_lead T text).length / 4) := by
    rw [List.length_take, decode_bytes_length]
  constructor
  · intro h
    obtain ⟨out, ho, _⟩ := decode_loop_total T text maxBytes maxBytes 0 buf
      (by rcases h with h | h
          · exact Or.inl h
          · exact Or.inr (by omega))
    exact ⟨out, ho⟩
  · intro out ho
    refine ⟨?_, hlen⟩
    have := decode_loop_lead T h0 maxBytes maxBytes text buf out (Nat.le_refl _) ho
    rw [this, Nat.sub_self, storeAt_eq _ _ _ (by rw [hlen]; omega), hlen]
    simp

/-- At the text `"...!."`, `maxBytes` 16 and a buffer of sixteen
bytes 7: three leading alphabet characters give two bytes, and the other
fourteen bytes of the buffer are as they were. -/
theorem decode_base64_writes_witness :
    [0, 0] ++ List.replicate 14 7 =
      (decode_bytes bcryptTables (alphabet_lead bcryptTables [46, 46, 46, 33, 46])).take 16 ++
        (List.replicate 16 7).drop
          (min 16 (3 * (alphabet_lead bcryptTables [46, 46, 46, 33, 46]).length / 4)) :=
  ((decode_base64_writes bcryptTables [46, 46, 46, 33, 46] (List.replicate 16 7) 16
    (by decide) (by decide)).2 ([0, 0] ++ List.replicate 14 7) (by decide)).1

/-! ## The salt characters of the hash (C11) -/

theorem regroup1 : ∀ a < 64, ∀ b < 64,
    (((a <<< 2) ||| ((b &&& 0x30) >>> 4)) % 256) >>> 2 = a := by
  decide

theorem regroup2a : ∀ a < 64, ∀ b < 64,
    (((a <<< 2) ||| ((b &&& 0x30) >>> 4)) % 256) &&& 0x03 = (b &&& 0x30) >>> 4 := by
  decide

theorem regroup2b : ∀ b < 64, ∀ c < 64,
    (((((b &&& 0x0f) <<< 4) ||| ((c &&& 0x3c) >>> 2)) % 256) >>> 4) &&& 0x0f = b &&& 0x0f := by
  decide

theorem regroup2c : ∀ b < 64, ((((b &&& 0x30) >>> 4) <<< 4) % 256) ||| (b &&& 0x0f) = b := by
  decide

theorem regroup3a : ∀ b < 64, ∀ c < 64,
    ((((b &&& 0x0f) <<< 4) ||| ((c &&& 0x3c) >>> 2)) % 256) &&& 0x0f = (c &&& 0x3c) >>> 2 := by
  decide

theorem regroup3b : ∀ c < 64, ∀ d < 64,
    (((((c &&& 0x03) <<< 6) ||| d) % 256) >>> 6) &&& 0x03 = c &&& 0x03 := by
  decide

theorem regroup3c : ∀ c < 64, ((((c &&& 0x3c) >>> 2) <<< 2) % 256) ||| (c &&& 0x03) = c := by
  decide

theorem regroup4 : ∀ c < 64, ∀ d < 64, ((((c &&& 0x03) <<< 6) ||| d) % 256) &&& 0x3f = d := by
  decide

theorem regroup_last : ∀ b < 64, (((b &&& 0x30) >>> 4) <<< 4) % 256 = b &&& 0x30 := by
  decide

theorem encode_loop_shift (T : Tables) (pre rest : List Nat) :
    ∀ k p, encode_loop T (pre ++ rest) k (pre.length + p) = encode_loop T rest k p := by
  intro k
  induction k using Nat.strong_induction_on with
  | _ k ih =>
    intro p
    have g0 : (pre ++ rest).getD (pre.length + p) 0 = rest.getD p 0 := by
      rw [List.getD_append_right _ _ _ _ (by omega)]
      congr 1
      omega
    have g1 : (pre ++ rest).getD (pre.length + p + 1) 0 = rest.getD (p + 1) 0 := by
      rw [List.getD_append_right _ _ _ _ (by omega)]
      congr 1
      omega
    have g2 : (pre ++ rest).getD (pre.length + p + 2) 0 = rest.getD (p + 2) 0 := by
      rw [List.getD_append_right _ _ _ _ (by omega)]
      congr 1
      omega
    match k with
    | 0 => rfl
    | 1 => simp only [encode_loop, g0]
    | 2 => simp only [encode_loop, g0, g1]
    | j + 3 =>
      simp only [encode_loop, g0, g1, g2]
      rw [Nat.add_assoc, ih j (by omega) (p + 3)]

/-- Encoding the three bytes of a group of four six-bit values gives the four
characters of the values. -/
theorem encode_group (T : Tables) (a b c d : Nat) (ha : a < 64) (hb : b < 64) (hc : c < 64)
    (hd : d < 64) (rest : List Nat) (k : Nat) :
    encode_loop T
      ((((a <<< 2) ||| ((b &&& 0x30) >>> 4)) % 256) ::
       ((((b &&& 0x0f) <<< 4) ||| ((c &&& 0x3c) >>> 2)) % 256) ::
       ((((c &&& 0x03) <<< 6) ||| d) % 256) :: rest) (k + 3) 0 =
      T.Base64Code a :: T.Base64Code b :: T.Base64Code c :: T.Base64Code d ::
        encode_loop T rest k 0 := by
  have hs := encode_loop_shift T
    [((a <<< 2) ||| ((b &&& 0x30) >>> 4)) % 256,
     (((b &&& 0x0f) <<< 4) ||| ((c &&& 0x3c) >>> 2)) % 256,
     (((c &&& 0x03) <<< 6) ||| d) % 256] rest k 0
  simp only [List.cons_append, List.nil_append, List.length_cons, List.length_nil,
    Nat.zero_add, Nat.add_zero] at hs
  rw [encode_loop]
  simp only [List.getD_cons_zero, List.getD_cons_succ, Nat.zero_add]
  rw [hs, regroup1 a ha b hb, regroup2a a ha b hb, regroup2b b hb c hc, regroup2c b hb,
    regroup3a b hb c hc, regroup3b c hc d hd, regroup3c c hc, regroup4 c hc d hd]

/-- Encoding the one byte of a last group of two six-bit values gives the
character of the first value and the character of the second value with its
four low bits cleared. -/
theorem encode_last_pair (T : Tables) (a b : Nat) (ha : a < 64) (hb : b < 64) :
    encode_loop T [((a <<< 2) ||| ((b &&& 0x30) >>> 4)) % 256] 1 0 =
      [T.Base64Code a, T.Base64Code (b &&& 0x30)] := by
  rw [encode_loop]
  simp only [List.getD_cons_zero]
  rw [regroup1 a ha b hb, regroup2a a ha b hb, regroup_last b hb]

/-- Decoding then encoding full groups and a last pair of alphabet characters
gives the characters back, the last one with the four low bits of its value
cleared. -/
theorem reencode_groups (T : Tables) (hT : T.Inverse) (a b : Nat) (ha : a < 64) (hb : b < 64) :
    ∀ (n : Nat) (g : List Nat), g.length = 4 * n → (∀ i ∈ g, i < 64) →
      encode_loop T (decode_bytes T ((g ++ [a, b]).map T.Base64Code)) (3 * n + 1) 0 =
        g.map T.Base64Code ++ [T.Base64Code a, T.Base64Code (b &&& 0x30)] := by
  intro n
  induction n with
  | zero =>
    intro g hg _
    have : g = [] := List.eq_nil_of_length_eq_zero (by omega)
    subst this
    simp only [List.nil_append, List.map_cons, List.map_nil, decode_bytes, hT a ha, hT b hb]
    exact encode_last_pair T a b ha hb
  | succ n ih =>
    intro g hg hlt
    rcases g with _ | ⟨a1, _ | ⟨a2, _ | ⟨a3, _ | ⟨a4, g2⟩⟩⟩⟩ <;>
      simp only [List.length_cons, List.length_nil] at hg <;> try omega
    have h1 : a1 < 64 := hlt a1 (by simp)
    have h2 : a2 < 64 := hlt a2 (by simp)
    have h3 : a3 < 64 := hlt a3 (by simp)
    have h4 : a4 < 64 := hlt a4 (by simp)
    simp only [List.cons_append, List.map_cons, decode_bytes, hT a1 h1, hT a2 h2, hT a3 h3,
      hT a4 h4]
    have e : 3 * (n + 1) + 1 = (3 * n + 1) + 3 := by omega
    rw [e, encode_group T a1 a2 a3 a4 h1 h2 h3 h4]
    have hi := ih g2 (by omega) (fun i hi => hlt i (by simp [hi]))
    simp only [List.append_eq]
    rw [hi]

/-- A header followed by text whose length passes the salt-length check is
accepted, with the minor character and the cost of the header; the salt
characters start right after the header. -/
theorem bcrypt_parse_header (minor logr : Nat) (rest : List Nat)
    (hm : minor = 0 ∨ minor = 97) (h4 : 4 ≤ logr) (h31 : logr ≤ 31)
    (hs : ¬ strlen rest * 3 / 4 < BCRYPT_MAXSALT) :
    bcrypt_parse (parameter_header minor logr ++ rest) =
      .ok { minor := minor, logr := logr, rounds := (1 <<< logr) % 2 ^ 32,
            off := if minor = 0 then 6 else 7 } ∧
    (parameter_header minor logr ++ rest).drop (if minor = 0 then 6 else 7) = rest := by
  have hv : schar 50 ≤ 50 := by decide
  have hd1 : 48 ≤ 48 + logr / 10 % 10 ∧ 48 + logr / 10 % 10 ≤ 57 := by omega
  have hd2 : 48 ≤ 48 + logr % 10 ∧ 48 + logr % 10 ≤ 57 := by omega
  have hn : 10 * (48 + logr / 10 % 10 - 48) + (48 + logr % 10 - 48) = logr := by omega
  rcases hm with h | h <;> subst h
  · have e : parameter_header 0 logr ++ rest = [36, 50, 36] ++ (48 + logr / 10 % 10) ::
        (48 + logr % 10) :: 36 :: rest := by
      simp [parameter_header, BCRYPT_VERSION]
    constructor
    · rw [e, bcrypt_parse_cost [36, 50, 36] _ 36 50 0 _ _ (Or.inl rfl) hv,
        atoi_two_digits _ _ _ hd1 hd2, hn]
      dsimp only
      rw [Int.toNat_ofNat, Nat.mod_eq_of_lt (show logr < 256 by omega),
        if_neg (by omega), if_neg (rounds_large logr h4 h31), if_neg hs]
      rfl
    · rw [e]; rfl
  · have e : parameter_header 97 logr ++ rest = [36, 50, 97, 36] ++ (48 + logr / 10 % 10) ::
        (48 + logr % 10) :: 36 :: rest := by
      simp [parameter_header, BCRYPT_VERSION]
    constructor
    · rw [e, bcrypt_parse_cost [36, 50, 97, 36] _ 36 50 36 _ _ (Or.inr rfl) hv,
        atoi_two_digits _ _ _ hd1 hd2, hn]
      dsimp only
      rw [Int.toNat_ofNat, Nat.mod_eq_of_lt (show logr < 256 by omega),
        if_neg (by omega), if_neg (rounds_large logr h4 h31), if_neg hs]
      rfl
    · rw [e]; rfl

theorem hash_string_header (T : Tables) (minor logr : Nat) (csalt ct : List Nat) :
    hash_string T minor logr csalt ct =
      parameter_header minor logr ++ encode_loop T csalt 16 0 ++ encode_loop T ct 23 0 := by
  simp [hash_string, parameter_header, BCRYPT_MAXSALT, BCRYPT_BLOCKS]

/-- The hash of a salt-parameter string made of a header and the characters
of 22 six-bit values: the header, the first 21 characters, the character of
the 22nd value with its four low bits cleared, and 31 more characters. -/
theorem salt_reencoded {σ : Type} (T : Tables) (hT : T.Inverse) (hN : T.NulFree)
    (h0 : T.CHAR64 0 = 255) (B : Blowfish σ) (fr : Frame σ) (hf : fr.WF) (key : List Nat)
    (minor logr : Nat) (hm : minor = 0 ∨ minor = 97) (h4 : 4 ≤ logr) (h31 : logr ≤ 31)
    (g : List Nat) (a b : Nat) (hg : g.length = 20) (hlt : ∀ i ∈ g, i < 64)
    (ha : a < 64) (hb : b < 64) :
    ∃ tail, tail.length = 31 ∧
      bcrypt T B fr key (parameter_header minor logr ++ (g ++ [a, b]).map T.Base64Code) =
        .hash (parameter_header minor logr ++
          (g.map T.Base64Code ++ [T.Base64Code a, T.Base64Code (b &&& 0x30)]) ++ tail) := by
  have hall : ∀ i ∈ g ++ [a, b], i < 64 := by
    intro i hi
    rcases List.mem_append.1 hi with h | h
    · exact hlt i h
    · simp only [List.mem_cons, List.mem_singleton, List.not_mem_nil, or_false] at h
      rcases h with h | h <;> omega
  have hlen : ((g ++ [a, b]).map T.Base64Code).length = 22 := by simp [hg]
  have hnz : ∀ c ∈ (g ++ [a, b]).map T.Base64Code, c ≠ 0 := by
    intro c hc
    obtain ⟨i, hi, rfl⟩ := List.mem_map.1 hc
    exact hN i (hall i hi)
  have hs : ¬ strlen ((g ++ [a, b]).map T.Base64Code) * 3 / 4 < BCRYPT_MAXSALT := by
    rw [strlen_of_ne_zero _ hnz, hlen]
    decide
  obtain ⟨hp, hdrop⟩ := bcrypt_parse_header minor logr _ hm h4 h31 hs
  have hlead : alphabet_lead T ((g ++ [a, b]).map T.Base64Code) =
      (g ++ [a, b]).map T.Base64Code := by
    unfold alphabet_lead
    rw [List.takeWhile_eq_self_iff]
    intro c hc
    obtain ⟨i, hi, rfl⟩ := List.mem_map.1 hc
    have := hall i hi
    simp only [decide_eq_true_eq, hT i this]
    omega
  obtain ⟨hl1, hb1, _, _⟩ := hf
  have hdl : (decode_bytes T ((g ++ [a, b]).map T.Base64Code)).length = 16 := by
    rw [decode_bytes_length, hlen]
  obtain ⟨out, hout, _, _⟩ := decode_loop_total T ((g ++ [a, b]).map T.Base64Code) 16 16 0
    fr.csalt (Or.inr (by omega))
  have hout2 := decode_loop_lead T h0 16 16 _ _ _ (Nat.le_refl 16) hout
  rw [hlead, Nat.sub_self, List.take_of_length_le (by omega),
    storeAt_zero_full _ _ (by omega)] at hout2
  subst hout2
  have hc : decode_base64 T fr.csalt BCRYPT_MAXSALT
      ((parameter_header minor logr ++ (g ++ [a, b]).map T.Base64Code).drop
        (if minor = 0 then 6 else 7)) =
      some (decode_bytes T ((g ++ [a, b]).map T.Base64Code)) := by
    rw [hdrop]
    exact hout
  obtain ⟨hh, _, _⟩ := bcrypt_eq_hash_string T B fr key _ _ _ hN ⟨hl1, hb1, ‹_›, ‹_›⟩ hp hc
  refine ⟨encode_loop T (bcrypt_crypt B fr.cdata key minor ((1 <<< logr) % 2 ^ 32)
    (decode_bytes T ((g ++ [a, b]).map T.Base64Code))).1 23 0, ?_, ?_⟩
  · rw [encode_loop_length]
  · rw [hh, hash_string_header]
    have := reencode_groups T hT a b ha hb 5 g (by omega) hlt
    rw [show 3 * 5 + 1 = 16 from rfl] at this
    rw [this]

theorem sextet_low_bits : ∀ b < 64, (b = b &&& 0x30 ↔ b % 16 = 0) := by
  decide

/-- C11, amended: for every password and every salt-parameter string made of
the header (`'$'`, `'2'`, the minor character `'a'` or none, `'$'`, the two
digits of a cost from 4 to 31, `'$'`) and the alphabet characters of 22
six-bit values, `bcrypt` returns a hash made of the header, the first 21 salt
characters, the character of the 22nd value with its four low bits cleared,
and 31 more characters.  The salt-parameter string is a prefix of the hash
exactly when the value of its last character is a multiple of 16. -/
theorem salt_prefix_canonical {σ : Type} (T : Tables) (hT : T.Inverse) (hN : T.NulFree)
    (h0 : T.CHAR64 0 = 255) (B : Blowfish σ) (fr : Frame σ) (hf : fr.WF) (key : List Nat)
    (minor logr : Nat) (hm : minor = 0 ∨ minor = 97) (h4 : 4 ≤ logr) (h31 : logr ≤ 31)
    (g : List Nat) (a b : Nat) (hg : g.length = 20) (hlt : ∀ i ∈ g, i < 64)
    (ha : a < 64) (hb : b < 64) :
    ∃ h tail, tail.length = 31 ∧
      bcrypt T B fr key (parameter_header minor logr ++ (g ++ [a, b]).map T.Base64Code) =
        .hash h ∧
      h = parameter_header minor logr ++ (g ++ [a, b &&& 0x30]).map T.Base64Code ++ tail ∧
      (parameter_header minor logr ++ (g ++ [a, b]).map T.Base64Code <+: h ↔ b % 16 = 0) := by
  obtain ⟨tail, htl, hh⟩ := salt_reencoded T hT hN h0 B fr hf key minor logr hm h4 h31 g a b hg
    hlt ha hb
  have hinj : T.Base64Code b = T.Base64Code (b &&& 0x30) ↔ b = b &&& 0x30 := by
    constructor
    · intro h
      have h1 := hT b hb
      have h2 := hT (b &&& 0x30) (Nat.lt_of_le_of_lt Nat.and_le_left hb)
      rw [← h1, h, h2]
      exact (Nat.and_assoc b 48 48).symm ▸ rfl
    · intro h
      rw [← h]
  refine ⟨_, tail, htl, hh, by simp, ?_⟩
  rw [← sextet_low_bits b hb, ← hinj]
  simp only [List.map_append, List.map_cons, List.map_nil, List.append_assoc,
    List.prefix_append_right_inj, List.cons_append, List.nil_append, List.cons_prefix_cons,
    List.nil_prefix, and_true, true_and]

/-- The amended C11 at the password `"pw"` and `"$2$04$...................../"`:
the last salt character `'/'` has the value 1, the hash has `'.'` in its
place, and the salt-parameter string is not a prefix of the hash. -/
theorem salt_prefix_canonical_witness :
    ∃ h tail, tail.length = 31 ∧
      bcrypt bcryptTables toyCipher frame0 key_pw
        (parameter_header 0 4 ++ (List.replicate 20 0 ++ [0, 1]).map bcryptTables.Base64Code) =
        .hash h ∧
      h = parameter_header 0 4 ++
        (List.replicate 20 0 ++ [0, 1 &&& 0x30]).map bcryptTables.Base64Code ++ tail ∧
      (parameter_header 0 4 ++ (List.replicate 20 0 ++ [0, 1]).map bcryptTables.Base64Code
        <+: h ↔ 1 % 16 = 0) :=
  salt_prefix_canonical bcryptTables bcryptTables_inverse bcryptTables_nulFree (by decide)
    toyCipher frame0 frame0_wf key_pw 0 4 (Or.inl rfl) (by decide) (by decide)
    (List.replicate 20 0) 0 1 (by decide) (by decide) (by decide) (by decide)

/-- C11 fails at `"$2$04$...................../"`, a well-formed
salt-parameter string with 22 alphabet characters: the hash of `"pw"` is the
one of `"$2$04$......................"`, which the salt-parameter string is
not a prefix of; and for every cipher, every password and all buffers the
hash returned for this salt-parameter string does not begin with it. -/
theorem salt_prefix_counterexample :
    (∀ c ∈ salt_slash.drop 6, ∃ i, i < 64 ∧ bcryptTables.Base64Code i = c) ∧
      (salt_slash.drop 6).length = 22 ∧
      bcrypt bcryptTables toyCipher frame0 key_pw salt_slash = .hash hash_04 ∧
      ¬ salt_slash <+: hash_04 ∧
      (∀ (σ : Type) (B : Blowfish σ) (fr : Frame σ) (key : List Nat), fr.WF →
        ∃ h, bcrypt bcryptTables B fr key salt_slash = .hash h ∧ ¬ salt_slash <+: h) := by
  refine ⟨by decide, by decide, by decide, by decide, ?_⟩
  intro σ B fr key hf
  obtain ⟨tail, _, hh⟩ := salt_reencoded bcryptTables bcryptTables_inverse bcryptTables_nulFree
    (by decide) B fr hf key 0 4 (Or.inl rfl) (by decide) (by decide) (List.replicate 20 0) 0 1
    (by decide) (by decide) (by decide) (by decide)
  have e : parameter_header 0 4 ++ (List.replicate 20 0 ++ [0, 1]).map bcryptTables.Base64Code
      = salt_slash := by decide
  rw [e] at hh
  refine ⟨_, hh, ?_⟩
  intro hpre
  have h2 := List.prefix_iff_eq_take.1 hpre
  have h3 : salt_slash.getD 27 0 = 47 := by decide
  rw [h2] at h3
  revert h3
  simp [salt_slash, parameter_header, BCRYPT_VERSION, bcryptTables]

end BCrypt
